import Mathlib

/-!
# Verification of the polybot posting core

A shallow embedding, in Lean 4, of the posting orchestration core of the
`polybot` library (`polybot/bot.py`, `polybot/service.py`, `polybot/image.py`),
together with proofs and refutations of a fixed list of behavioural claims.

Modelling conventions:

* Python strings are `List Char` (`Chars`); Python `len` on a string is
  `List.length`, which matches Python's code-point count.
* Python `textwrap.wrap` (used by `Service.do_wrapped`) is embedded following
  CPython's `TextWrapper` with its default settings (`expand_tabs=True`,
  `replace_whitespace=True`, `drop_whitespace=True`, `break_long_words=True`,
  `break_on_hyphens=True`, no indents, no `max_lines`).  The chunk splitter
  `_split` is embedded for hyphen-free text (runs of whitespace alternating
  with runs of non-whitespace); theorems about wrapping therefore carry a
  no-hyphen hypothesis.  Whitespace is Python's ASCII whitespace set
  (`string.whitespace`); exotic Unicode whitespace is not modelled.
  Python raises `ValueError` for `width <= 0`; the embedding is used, and its
  theorems are stated, for `width >= 1`.
* Network submission (`do_post` of each concrete service) is an abstract
  function parameter of type `DoPost`; every call to it is recorded in an
  explicit submission log so that theorems can talk about what was submitted.
* Dynamic Python values that flow through the reply-threading logic
  (`in_reply_to_id`, results of `do_post`) are modelled by the inductive
  `PyVal`; Python runtime errors are the inductive `PyErr`, and fallible code
  returns `Except PyErr _`.  An uncaught Python exception is `.error e`.
* `PIL`-based iterative downscaling inside `Image.resize_to_target` depends on
  floating-point arithmetic and image codecs; it is abstracted as a function
  parameter `loop`.  The byte-budget early-return branch, which is what the
  claims are about, is embedded literally.
-/

abbrev Chars := List Char

/-- Python's `string.whitespace` characters (the set that
`textwrap._munge_whitespace` translates to a space). -/
def pySpace (c : Char) : Bool :=
  c = ' ' || c = '\t' || c = '\n' || c = '\r' || c = '\x0b' || c = '\x0c'

/-- `s.strip() == ''` for a chunk: every character is whitespace. -/
def isBlank (s : Chars) : Bool := s.all pySpace

/-- Python `str.expandtabs(8)`: replace each tab by spaces up to the next
multiple of the tab size, tracking the current column. -/
def expandTabsAux (tabsize : Nat) : List Char → Nat → List Char
  | [], _ => []
  | c :: cs, col =>
    if c = '\t' then
      let pad := tabsize - col % tabsize
      List.replicate pad ' ' ++ expandTabsAux tabsize cs (col + pad)
    else if c = '\n' || c = '\r' then c :: expandTabsAux tabsize cs 0
    else c :: expandTabsAux tabsize cs (col + 1)

/-- `TextWrapper._munge_whitespace`: expand tabs, then map every whitespace
character to a plain space. -/
def mungeWhitespace (s : Chars) : Chars :=
  (expandTabsAux 8 s 0).map (fun c => if pySpace c then ' ' else c)

theorem length_dropWhile_le' {α : Type} (p : α → Bool) (l : List α) :
    (l.dropWhile p).length ≤ l.length := by
  induction l with
  | nil => simp [List.dropWhile]
  | cons a l ih =>
    simp only [List.dropWhile]
    cases p a
    · simp
    · simp; omega

/-- Fuelled worker for `splitRuns` (structural recursion on the fuel so that
the definition computes by kernel reduction; fuel `s.length` always
suffices). -/
def splitRunsF : Nat → Chars → List Chars
  | 0, _ => []
  | _, [] => []
  | fuel + 1, c :: cs =>
    (c :: cs.takeWhile (fun d => pySpace d = pySpace c)) ::
      splitRunsF fuel (cs.dropWhile (fun d => pySpace d = pySpace c))

/-- `TextWrapper._split` on hyphen-free text: maximal runs of whitespace
alternate with maximal runs of non-whitespace; no run is empty. -/
def splitRuns (s : Chars) : List Chars := splitRunsF s.length s

theorem splitRunsF_congr :
    ∀ fuel1 fuel2 s, s.length ≤ fuel1 → s.length ≤ fuel2 →
      splitRunsF fuel1 s = splitRunsF fuel2 s := by
  intro fuel1
  induction fuel1 with
  | zero =>
    intro fuel2 s h1 _
    have : s = [] := List.eq_nil_of_length_eq_zero (Nat.le_zero.mp h1)
    subst this
    cases fuel2 <;> rfl
  | succ f1 ih =>
    intro fuel2 s h1 h2
    cases s with
    | nil => cases fuel2 <;> rfl
    | cons c cs =>
      cases fuel2 with
      | zero => simp at h2
      | succ f2 =>
        simp only [splitRunsF]
        congr 1
        exact ih f2 _
          (Nat.le_trans (length_dropWhile_le' _ _) (Nat.lt_succ_iff.mp h1))
          (Nat.le_trans (length_dropWhile_le' _ _) (Nat.lt_succ_iff.mp h2))

/-- The defining equation of `splitRuns` on a non-empty string. -/
theorem splitRuns_cons (c : Char) (cs : Chars) :
    splitRuns (c :: cs) =
      (c :: cs.takeWhile (fun d => pySpace d = pySpace c)) ::
        splitRuns (cs.dropWhile (fun d => pySpace d = pySpace c)) := by
  show splitRunsF (c :: cs).length (c :: cs) = _
  simp only [List.length_cons, splitRunsF]
  congr 1
  exact splitRunsF_congr cs.length _ _ (length_dropWhile_le' _ _) (Nat.le_refl _)

/-- The words of a text: its maximal non-whitespace runs, in order. -/
def wordsOf (s : Chars) : List Chars :=
  (splitRuns s).filter (fun c => !isBlank c)

/-- The inner `while` of `TextWrapper._wrap_chunks`: pop chunks onto the
current line while they keep the line length within `width`.  Returns the
chunks taken (in order) and the remaining chunks. -/
def greedyTake (width : Nat) : Nat → List Chars → List Chars × List Chars
  | _, [] => ([], [])
  | curLen, c :: cs =>
    if curLen + c.length ≤ width then
      let p := greedyTake width (curLen + c.length) cs
      (c :: p.1, p.2)
    else ([], c :: cs)

/-- `chunk.rfind('-', 0, chunk_end)` restricted to the given slice: the last
index holding a hyphen, if any. -/
def rfindHyphen : Chars → Option Nat
  | [] => none
  | c :: cs =>
    match rfindHyphen cs with
    | some h => some (h + 1)
    | none => if c = '-' then some 0 else none

theorem rfindHyphen_lt (s : Chars) (h : Nat) (hh : rfindHyphen s = some h) :
    h < s.length := by
  induction s generalizing h with
  | nil => simp [rfindHyphen] at hh
  | cons c cs ih =>
    simp only [rfindHyphen] at hh
    cases hr : rfindHyphen cs with
    | some h0 =>
      rw [hr] at hh
      cases hh
      exact Nat.succ_lt_succ (ih h0 hr)
    | none =>
      rw [hr] at hh
      by_cases hc : c = '-'
      · rw [if_pos hc] at hh
        cases hh
        exact Nat.succ_pos _
      · rw [if_neg hc] at hh
        cases hh

/-- The index at which `_handle_long_word` cuts the over-long chunk: the
space left on the current line, or just after the last suitable hyphen
before it (`chunk.rfind('-', 0, space_left)` with at least one non-hyphen
character before it). -/
def hlwEnd (spaceLeft : Nat) (chunk : Chars) : Nat :=
  if spaceLeft < chunk.length then
    match rfindHyphen (chunk.take spaceLeft) with
    | some h =>
      if 0 < h && (chunk.take h).any (fun c => !(c = '-')) then h + 1
      else spaceLeft
    | none => spaceLeft
  else spaceLeft

/-- `TextWrapper._handle_long_word` with the default
`break_long_words=True, break_on_hyphens=True`: split the chunk at the space
left on the current line (or just after a suitable hyphen), returning the
piece placed on the line and the remainder pushed back. -/
def handleLongWord (width curLen : Nat) (chunk : Chars) : Chars × Chars :=
  let spaceLeft := if width < 1 then 1 else width - curLen
  (chunk.take (hlwEnd spaceLeft chunk), chunk.drop (hlwEnd spaceLeft chunk))

theorem hlwEnd_le (sl : Nat) (c : Chars) (_hsl : 1 ≤ sl) : hlwEnd sl c ≤ sl := by
  unfold hlwEnd
  split
  · cases hr : rfindHyphen (c.take sl) with
    | some h =>
      show (if 0 < h && (c.take h).any (fun c => !(c = '-')) then h + 1
        else sl) ≤ sl
      have h1 := rfindHyphen_lt _ h hr
      have h2 : (c.take sl).length ≤ sl := List.length_take_le ..
      split
      · omega
      · exact Nat.le_refl _
    | none => exact Nat.le_refl _
  · exact Nat.le_refl _

theorem hlwEnd_pos (sl : Nat) (c : Chars) (hsl : 1 ≤ sl) : 1 ≤ hlwEnd sl c := by
  unfold hlwEnd
  split
  · cases hr : rfindHyphen (c.take sl) with
    | some h =>
      show 1 ≤ (if 0 < h && (c.take h).any (fun c => !(c = '-')) then h + 1
        else sl)
      split
      · omega
      · exact hsl
    | none => exact hsl
  · exact hsl

theorem hlwEnd_zero (c : Chars) : hlwEnd 0 c = 0 := by
  unfold hlwEnd
  split
  · simp [rfindHyphen]
  · have : c.length = 0 := by omega
    have hc : c = [] := List.eq_nil_of_length_eq_zero this
    subst hc
    rfl

/-- Total character count of a chunk list (`sum(map(len, cur_line))`). -/
def sumLen (L : List Chars) : Nat := (L.map List.length).sum

/-- The long-word stage of `_wrap_chunks`: if the head remaining chunk does
not fit on any line (`len(chunks[-1]) > width`), split it with
`_handle_long_word`, placing the piece at the end of the current line and
pushing the remainder back. -/
def wrapLong (width : Nat) (taken : List Chars) :
    List Chars → List Chars × List Chars
  | [] => (taken, [])
  | r :: rs =>
    if width < r.length then
      let pr := handleLongWord width (sumLen taken) r
      (taken ++ [pr.1], pr.2 :: rs)
    else (taken, r :: rs)

/-- The trailing-whitespace drop of `_wrap_chunks`: delete the last element
of the current line when it is pure whitespace. -/
def wrapTrim (taken2 : List Chars) : List Chars :=
  match taken2.getLast? with
  | some last => if isBlank last then taken2.dropLast else taken2
  | none => taken2

/-- Emit the line: `if cur_line: lines.append(''.join(cur_line))`. -/
def wrapEmit (taken2 : List Chars) : Option Chars :=
  if (wrapTrim taken2).isEmpty then none else some (wrapTrim taken2).flatten

/-- The line-building part of one iteration of the outer `while chunks` loop
of `TextWrapper._wrap_chunks` (after the leading-whitespace drop): greedily
fill the line, break an over-long head chunk, drop one trailing whitespace
piece, and emit the line if non-empty.  Returns the emitted line (if any)
and the remaining chunks. -/
def wrapCore (width : Nat) (chunks1 : List Chars) : Option Chars × List Chars :=
  let p := greedyTake width 0 chunks1
  let q := wrapLong width p.1 p.2
  (wrapEmit q.1, q.2)

/-- One iteration of the outer `while chunks` loop of
`TextWrapper._wrap_chunks`: drop a leading whitespace chunk (only once lines
exist), then build the line via `wrapCore`. -/
def wrapStep (width : Nat) (hasLines : Bool) (chunks : List Chars) :
    Option Chars × List Chars :=
  wrapCore width
    (match chunks with
     | c :: cs => if isBlank c && hasLines then cs else c :: cs
     | [] => [])

/-- Termination measure for the chunk-consuming loop: total character count
plus one per chunk. -/
def chunkMeasure (cs : List Chars) : Nat := (cs.map (fun c => c.length + 1)).sum

/-- The outer loop of `TextWrapper._wrap_chunks`, with explicit fuel.  With
fuel at least `chunkMeasure chunks + 1` the fuel never runs out (every step
strictly decreases the measure). -/
def wrapLoop : Nat → Nat → List Chars → List Chars → List Chars
  | 0, _, lines, _ => lines.reverse
  | fuel + 1, width, lines, chunks =>
    match chunks with
    | [] => lines.reverse
    | _ :: _ =>
      let s := wrapStep width (!lines.isEmpty) chunks
      wrapLoop fuel width
        (match s.1 with
         | some l => l :: lines
         | none => lines) s.2

/-- `textwrap.wrap(text, width)` with default options (see module docstring
for the embedded fragment). -/
def textwrapWrap (width : Nat) (text : Chars) : List Chars :=
  let chunks := splitRuns (mungeWhitespace text)
  wrapLoop (chunkMeasure chunks + 1) width [] chunks

/-! ## Dynamic values and Python errors -/

/-- Python runtime errors relevant to the embedded code.  `postError` is the
library's own `PostError`; the rest are built-in exception kinds. -/
inductive PyErr where
  | valueError
  | typeError
  | keyError
  | attributeError
  | indexError
  | postError
deriving DecidableEq, Repr

/-- Dynamic Python values flowing through the reply-threading logic:
`pnone` is `None`; `dict` is an insertion-ordered dictionary with string
keys; `strongRef` models an `atproto` `strong_ref.Main` object (opaque
payload); `obj oid odataId` models any other result object, where `oid` is
its `id` attribute (if `hasattr(out, "id")`) and `odataId` is `out.data["id"]`
(if reachable). -/
inductive PyVal where
  | pnone
  | nat (n : Nat)
  | str (s : Chars)
  | dict (es : List (Chars × PyVal))
  | strongRef (n : Nat)
  | obj (oid : Option PyVal) (odataId : Option PyVal)

/-- Python truthiness for the modelled values. -/
def PyVal.truthy : PyVal → Bool
  | .pnone => false
  | .nat n => !(n = 0)
  | .str s => !s.isEmpty
  | .dict es => !es.isEmpty
  | .strongRef _ => true
  | .obj _ _ => true

/-- `v[k]` for a string key: dictionary lookup succeeds or raises `KeyError`;
subscripting any other modelled value with a string raises `TypeError`. -/
def pyGetItem (v : PyVal) (k : Chars) : Except PyErr PyVal :=
  match v with
  | .dict es =>
    match es.find? (fun p => p.1 = k) with
    | some p => .ok p.2
    | none => .error .keyError
  | _ => .error .typeError

/-- Assignment `d[k] = v` on an insertion-ordered association list: replace
the value at an existing key in place, else append. -/
def assocSet {β : Type} (es : List (Chars × β)) (k : Chars) (v : β) :
    List (Chars × β) :=
  match es with
  | [] => [(k, v)]
  | (k0, v0) :: rest =>
    if k0 = k then (k, v) :: rest else (k0, v0) :: assocSet rest k v

/-! ## Images (`polybot/image.py`) -/

/-- `polybot.image.Image`: an immutable byte payload plus optional MIME type
and description.  Bytes are modelled as `List Nat`. -/
structure Image where
  data : List Nat
  mime_type : Option Chars
  description : Option Chars
deriving DecidableEq, Repr

/-- `Image.__init__`: reading a `path` or a `file` is modelled by the bytes
that the read would yield.  The source tries `path`, then `file`, then
`data`, and raises `ValueError` only when all three are `None`. -/
def Image.init (path : Option (List Nat)) (file : Option (List Nat))
    (data : Option (List Nat)) (mime_type : Option Chars)
    (description : Option Chars) : Except PyErr Image :=
  match path with
  | some p => .ok ⟨p, mime_type, description⟩
  | none =>
    match file with
    | some f => .ok ⟨f, mime_type, description⟩
    | none =>
      match data with
      | some d => .ok ⟨d, mime_type, description⟩
      | none => .error .valueError

/-- `Image.resize_to_target`: if no pixel budget is given and the payload is
already under the byte budget, return `self` unchanged; otherwise enter the
iterative PIL downscale loop, abstracted here as the parameter `loop`
(it depends on floating-point arithmetic and image codecs). -/
def Image.resize_to_target (loop : Image → Nat → Option Nat → Image)
    (img : Image) (target_bytes : Nat) (target_pixels : Option Nat) : Image :=
  if target_pixels = none ∧ img.data.length < target_bytes then img
  else loop img target_bytes target_pixels

/-! ## Services (`polybot/service.py`) -/

/-- The per-service limit fields of `Service` (class attributes, possibly
refreshed from a live instance probe for Mastodon). -/
structure Profile where
  ellipsis_length : Nat
  max_length : Nat
  max_length_image : Nat
  max_image_size : Nat
  max_image_pixels : Option Nat
  max_image_count : Nat
deriving Repr

/-- A single recorded call to a service's `do_post`: the text submitted, the
images passed, and the `in_reply_to_id` argument.  (`lat`/`lon` are passed
through unchanged by the source and never read by the core logic, so they
are left out of the model.) -/
structure Submission where
  text : Chars
  images : List Image
  replyTo : PyVal

/-- The abstract network-submission capability of a concrete service:
`do_post text images in_reply_to_id` returns a result object or raises. -/
abbrev DoPost := Chars → List Image → PyVal → Except PyErr PyVal

/-- `Service.longest_allowed`: start from `status[0]` and scan the
alternatives in ascending length order (Python's stable `sorted(status,
key=len)`, embedded as a stable insertion sort), keeping the last one whose
length is strictly below the applicable limit.  `status[0]` on an empty list
raises `IndexError`. -/
def longest_allowed (prof : Profile) (status : List Chars)
    (images : List Image) : Except PyErr Chars :=
  let max_len := if !images.isEmpty then prof.max_length_image
                 else prof.max_length
  match status with
  | [] => .error .indexError
  | s0 :: _ =>
    .ok ((List.insertionSort (fun a b => a.length ≤ b.length) status).foldl
      (fun picked s => if s.length < max_len then s else picked) s0)

/-- The `in_reply_to_id` update at the end of each `do_wrapped` iteration,
keyed on the shape of the `do_post` result `out`: an `atproto` strong ref
builds (or mutates) a `{"root": ..., "parent": ...}` dictionary; an object
with an `id` attribute contributes `out.id`; otherwise `out.data["id"]` is
used (raising `AttributeError` when there is no such path). -/
def chainUpdate (first : Bool) (prev : PyVal) (out : PyVal) :
    Except PyErr PyVal :=
  match out with
  | .strongRef n =>
    if first then
      .ok (.dict [("root".data, .strongRef n), ("parent".data, .strongRef n)])
    else
      match prev with
      | .dict es => .ok (.dict (assocSet es "parent".data (.strongRef n)))
      | _ => .error .typeError
  | .obj (some i) _ => .ok i
  | .obj none (some d) => .ok d
  | _ => .error .attributeError

/-- The `for line in wrapped` loop of `Service.do_wrapped`: stitch the
ellipsis onto each segment, call `do_post`, and thread the reply reference.
Returns the submission log together with the function's result; on success
the result is `None` (`do_wrapped` has no `return` statement). -/
def wrappedLoop (doPost : DoPost) (images : List Image) (many : Bool) :
    List Chars → Bool → PyVal → List Submission →
    List Submission × Except PyErr PyVal
  | [], _, _, acc => (acc.reverse, .ok .pnone)
  | line :: rest, first, inRep, acc =>
    let line1 := if first && many then line ++ ['…'] else line
    let line2 := if !first then '…' :: line1 else line1
    let imgs := if !images.isEmpty && first then images else []
    let sub : Submission := ⟨line2, imgs, inRep⟩
    match doPost line2 imgs inRep with
    | .error e => ((sub :: acc).reverse, .error e)
    | .ok out =>
      match chainUpdate first inRep out with
      | .error e => ((sub :: acc).reverse, .error e)
      | .ok newRep => wrappedLoop doPost images many rest false newRep (sub :: acc)

/-- `Service.do_wrapped`: choose the applicable limit, wrap the text when it
exceeds that limit (width `max_len - ellipsis_length`), else keep it whole,
then run the submission loop. -/
def do_wrapped (prof : Profile) (doPost : DoPost) (status : Chars)
    (images : List Image) (inRep : PyVal) :
    List Submission × Except PyErr PyVal :=
  let maxLen := if !images.isEmpty then prof.max_length_image
                else prof.max_length
  let wrapped := if maxLen < status.length then
                   textwrapWrap (maxLen - prof.ellipsis_length) status
                 else [status]
  wrappedLoop doPost images (decide (1 < wrapped.length)) wrapped true inRep []

/-- The `status` argument of `Service.post` / `Bot.post`: a single string or
a list of alternative strings. -/
inductive Status where
  | str (s : Chars)
  | list (ss : List Chars)

/-- `Service.post`: clip the image list to `max_image_count` and resize each
image; then, only in live mode, dispatch to `do_wrapped` (wrap mode) or to
variant selection plus a single `do_post`.  In non-live mode the function
body ends after the image processing and implicitly returns `None`.
(`do_wrapped` with a list-valued status would fail inside `textwrap`/`len`
machinery; it is modelled as `TypeError`.  `Bot.post` validation makes that
combination unreachable from the orchestrator.) -/
def service_post (prof : Profile) (doPost : DoPost)
    (resizeLoop : Image → Nat → Option Nat → Image) (live : Bool)
    (status : Status) (wrap : Bool) (images : List Image) (inRep : PyVal) :
    List Submission × Except PyErr PyVal :=
  let imgs := (images.take prof.max_image_count).map
    (fun i => Image.resize_to_target resizeLoop i prof.max_image_size
      prof.max_image_pixels)
  if live then
    if wrap then
      match status with
      | .str s => do_wrapped prof doPost s imgs inRep
      | .list _ => ([], .error .typeError)
    else
      match status with
      | .str s => ([⟨s, imgs, inRep⟩], doPost s imgs inRep)
      | .list ss =>
        match longest_allowed prof ss imgs with
        | .error e => ([], .error e)
        | .ok s => ([⟨s, imgs, inRep⟩], doPost s imgs inRep)
  else ([], .ok .pnone)

/-! ## Orchestrator (`polybot/bot.py`) -/

/-- One configured, authenticated service as seen by `Bot.post`. -/
structure ServiceInst where
  name : Chars
  profile : Profile
  doPost : DoPost
  live : Bool

/-- An element of the `images` argument of `Bot.post` as a dynamic Python
value: an `Image` instance or anything else. -/
inductive PyObj where
  | img (i : Image)
  | other

/-- The `images` argument of `Bot.post` before validation: possibly not a
list at all. -/
inductive ImagesArg where
  | notAList
  | list (xs : List PyObj)

/-- The `for service in self.services` loop of `Bot.post`.  Inside the
per-service `try`: when `in_reply_to_id` is truthy it is REBOUND to
`in_reply_to_id[service.name]` (the source mutates the loop variable, so
later services index into the previous lookup's result); then
`service.post(...)` runs and its result is stored under the service name.
Only `PostError` is caught; any other exception escapes.  Returns the result
(the `out` dictionary or the escaping exception) plus the global submission
log tagged by service name. -/
def botLoop (resizeLoop : Image → Nat → Option Nat → Image) (status : Status)
    (wrap : Bool) (images : List Image) :
    PyVal → List ServiceInst → List (Chars × PyVal) →
    List (Chars × Submission) →
    Except PyErr (List (Chars × PyVal)) × List (Chars × Submission)
  | _, [], out, trace => (.ok out, trace)
  | inRep, svc :: rest, out, trace =>
    match (if inRep.truthy then pyGetItem inRep svc.name else .ok inRep) with
    | .error e =>
      if e = .postError then botLoop resizeLoop status wrap images inRep rest out trace
      else (.error e, trace)
    | .ok rep =>
      let pr := service_post svc.profile svc.doPost resizeLoop svc.live status
        wrap images rep
      let trace1 := trace ++ pr.1.map (fun s => (svc.name, s))
      match pr.2 with
      | .ok v =>
        botLoop resizeLoop status wrap images rep rest (assocSet out svc.name v) trace1
      | .error e =>
        if e = .postError then botLoop resizeLoop status wrap images rep rest out trace1
        else (.error e, trace1)

/-- `Bot.post`: central validation (wrap/alternatives exclusivity, non-empty
alternatives, images must be a list of `Image` instances), then the fan-out
loop over the configured services. -/
def bot_post (services : List ServiceInst)
    (resizeLoop : Image → Nat → Option Nat → Image) (status : Status)
    (wrap : Bool) (imagesArg : ImagesArg) (inRep : PyVal) :
    Except PyErr (List (Chars × PyVal)) × List (Chars × Submission) :=
  let statusBad :=
    match status with
    | .list ss => wrap || ss.isEmpty
    | .str _ => false
  if statusBad then (.error .valueError, [])
  else
    match imagesArg with
    | .notAList => (.error .valueError, [])
    | .list xs =>
      if xs.all (fun o => match o with | .img _ => true | .other => false) then
        let images := xs.filterMap
          (fun o => match o with | .img i => some i | .other => none)
        botLoop resizeLoop status wrap images inRep services [] []
      else (.error .valueError, [])

/-! ## Concrete instances used by witnesses and counterexamples -/

/-- A resize loop model that returns its input (its behavior is irrelevant to
every claim that uses it). -/
def rlId : Image → Nat → Option Nat → Image := fun i _ _ => i

/-- A small test profile: `max_length = max_length_image = 6`,
`ellipsis_length = 1`. -/
def profT : Profile := ⟨1, 6, 6, 1000, none, 4⟩

/-- The profile used in the variant-selection example (limit 10). -/
def profSel : Profile := ⟨1, 10, 10, 1000, none, 4⟩

/-- A `do_post` model that always succeeds, returning an object with an `id`
attribute. -/
def dpOkObj : DoPost := fun _ _ _ => .ok (.obj (some (.nat 7)) none)

/-- A `do_post` model that always raises `PostError`. -/
def dpFailPost : DoPost := fun _ _ _ => .error .postError

/-- A live configured service with the test profile and a given `do_post`. -/
def mkSvc (n : String) (dp : DoPost) : ServiceInst := ⟨n.data, profT, dp, true⟩

/-- The per-service result of one adapter inside the fan-out, at reply
target `None`: the submissions it makes and its returned value or error. -/
def servicePostOf (rl : Image → Nat → Option Nat → Image) (status : Status)
    (wrap : Bool) (images : List Image) (svc : ServiceInst) :
    List Submission × Except PyErr PyVal :=
  service_post svc.profile svc.doPost rl svc.live status wrap images .pnone

/-! ## Claim C9 — resize identity under the byte budget -/

/-- C9: for every image whose byte length is strictly below the byte budget,
`resize_to_target` with no pixel budget returns the image itself, whatever
the downscale loop would do. -/
theorem claim_C9_resize_identity (loop : Image → Nat → Option Nat → Image)
    (img : Image) (target_bytes : Nat) (h : img.data.length < target_bytes) :
    Image.resize_to_target loop img target_bytes none = img := by
  simp [Image.resize_to_target, h]

theorem claim_C9_witness :
    (Image.mk [0] none none).data.length < 2 ∧
      Image.resize_to_target rlId ⟨[0], none, none⟩ 2 none = ⟨[0], none, none⟩ :=
  ⟨by decide, claim_C9_resize_identity rlId ⟨[0], none, none⟩ 2 (by decide)⟩

/-! ## Claim C10 — no length check on a plain string in live mode -/

/-- C10: a live, non-wrap post of a single string submits the text exactly as
given — whatever its length relative to the profile's limits — and returns
whatever `do_post` returns.  The only image processing is the clip to
`max_image_count` and the per-image resize. -/
theorem claim_C10_no_length_check (prof : Profile) (dp : DoPost)
    (rl : Image → Nat → Option Nat → Image) (s : Chars) (images : List Image)
    (inRep : PyVal) :
    service_post prof dp rl true (.str s) false images inRep =
      ([⟨s,
         (images.take prof.max_image_count).map
           (fun i => Image.resize_to_target rl i prof.max_image_size
             prof.max_image_pixels), inRep⟩],
       dp s
         ((images.take prof.max_image_count).map
           (fun i => Image.resize_to_target rl i prof.max_image_size
             prof.max_image_pixels)) inRep) := rfl

/-! ## Claim C8 — Image constructor source arguments -/

/-- C8 counterexample: supplying BOTH a path and raw bytes does not fail; the
constructor silently uses the path.  The claim that the constructor fails
when more than one source is supplied is therefore false. -/
theorem claim_C8_counterexample :
    Image.init (some [1]) none (some [2]) none none = .ok ⟨[1], none, none⟩ :=
  rfl

/-- C8 amended: the constructor fails exactly when NO source is supplied;
when several are supplied it uses the first in the priority order
path, file, data. -/
theorem claim_C8_amended (f d : Option (List Nat)) (m desc : Option Chars) :
    Image.init none none none m desc = .error .valueError ∧
      (∀ b, Image.init (some b) f d m desc = .ok ⟨b, m, desc⟩) ∧
      (∀ b, Image.init none (some b) d m desc = .ok ⟨b, m, desc⟩) ∧
      (∀ b, Image.init none none (some b) m desc = .ok ⟨b, m, desc⟩) :=
  ⟨rfl, fun _ => rfl, fun _ => rfl, fun _ => rfl⟩

/-! ## Claim C6 — non-live mode -/

/-- C6 counterexample: with an empty alternatives list, a non-live post
returns `None` successfully while a live post raises `IndexError` from the
selection logic — so a non-live post does NOT perform the text-selection
logic, contrary to the claim. -/
theorem claim_C6_counterexample :
    service_post profT dpOkObj rlId false (.list []) false [] .pnone
        = ([], .ok .pnone) ∧
      service_post profT dpOkObj rlId true (.list []) false [] .pnone
        = ([], .error .indexError) :=
  ⟨rfl, rfl⟩

/-- C6 amended: when `live` is false, `Service.post` still clips and resizes
the images (a discarded computation) but skips selection/wrap processing and
network submission entirely, making no submission and returning `None` — for
every status, wrap flag, image list and reply target. -/
theorem claim_C6_amended (prof : Profile) (dp : DoPost)
    (rl : Image → Nat → Option Nat → Image) (status : Status) (wrap : Bool)
    (images : List Image) (inRep : PyVal) :
    service_post prof dp rl false status wrap images inRep = ([], .ok .pnone) :=
  rfl

/-! ## Claim C7 — central validation before fan-out -/

/-- C7: each of the three malformed-request shapes makes `Bot.post` raise
`ValueError` with an empty submission log, for EVERY configured service
list — so validation happens before any adapter is invoked and before any
network call, and the adapters are untouched. -/
theorem claim_C7_validation (services : List ServiceInst)
    (rl : Image → Nat → Option Nat → Image) (inRep : PyVal) :
    (∀ ss imagesArg,
        bot_post services rl (.list ss) true imagesArg inRep
          = (.error .valueError, [])) ∧
      (∀ wrap imagesArg,
        bot_post services rl (.list []) wrap imagesArg inRep
          = (.error .valueError, [])) ∧
      (∀ status wrap,
        bot_post services rl status wrap .notAList inRep
          = (.error .valueError, [])) ∧
      (∀ status wrap xs,
        (xs.all fun o => match o with | .img _ => true | .other => false)
            = false →
          bot_post services rl status wrap (.list xs) inRep
            = (.error .valueError, [])) := by
  refine ⟨fun ss imagesArg => rfl, fun wrap imagesArg => ?_,
    fun status wrap => ?_, fun status wrap xs h => ?_⟩
  · cases wrap <;> rfl
  · cases status with
    | str s => rfl
    | list ss =>
      cases wrap with
      | true => rfl
      | false => cases ss <;> rfl
  · cases status with
    | str s => simp [bot_post, h]
    | list ss =>
      cases wrap with
      | true => rfl
      | false => cases ss <;> simp [bot_post, h]

theorem claim_C7_witness :
    bot_post [] rlId (.str ['x']) false (.list [PyObj.other]) .pnone
      = (.error .valueError, []) :=
  (claim_C7_validation [] rlId .pnone).2.2.2 (.str ['x']) false [PyObj.other]
    (by decide)

/-! ## Claim C2 — per-service reply-target lookup -/

/-- C2: concrete failing input for the reply-target lookup.  With two
configured services and `in_reply_to_id = {"s1": 11, "s2": 12}`, the first
adapter correctly receives `11`, but the loop REBINDS `in_reply_to_id` to
that looked-up value, so the second iteration evaluates `11["s2"]` — a
`TypeError` that escapes `Bot.post` — instead of passing the second
adapter its own entry `12`.  (The `Bot.post` docstring describes the
argument as a dictionary of service names to status IDs, which the loop can
therefore not consume for more than one service: a bug in the code.) -/
theorem claim_C2_lookup_bug :
    bot_post [mkSvc "s1" dpOkObj, mkSvc "s2" dpOkObj] rlId
        (.str "hi".data) false (.list [])
        (.dict [("s1".data, .nat 11), ("s2".data, .nat 12)])
      = (.error .typeError,
         [("s1".data, ⟨"hi".data, [], .nat 11⟩)]) :=
  rfl

/-! ## Claim C3 — return value of `do_wrapped` -/

/-- C3 counterexample: a two-segment wrapped post in which every submission
succeeds.  Both segments are submitted (the log shows them, correctly
stitched), yet `do_wrapped` evaluates to `None` — it has no `return`
statement — rather than to the last segment's reply reference. -/
theorem claim_C3_counterexample :
    (do_wrapped profT dpOkObj "aa bb cc".data [] .pnone).1.map Submission.text
        = ["aa bb…".data, "…cc".data] ∧
      (do_wrapped profT dpOkObj "aa bb cc".data [] .pnone).2 = .ok .pnone :=
  ⟨by decide, by rfl⟩

/-- Helper for C3: whenever the `do_wrapped` submission loop terminates
without raising, its value is `None` (the fall-off-the-end return). -/
theorem wrappedLoop_ok_pnone (dp : DoPost) (images : List Image) (many : Bool)
    (lines : List Chars) :
    ∀ first inRep acc v,
      (wrappedLoop dp images many lines first inRep acc).2 = .ok v →
        v = .pnone := by
  induction lines with
  | nil =>
    intro first inRep acc v h
    simp [wrappedLoop] at h
    exact h.symm
  | cons line rest ih =>
    intro first inRep acc v h
    simp only [wrappedLoop] at h
    split at h
    · simp at h
    · split at h
      · simp at h
      · exact ih _ _ _ _ h

/-- C3 amended: `do_wrapped` never returns a reply reference.  When every
segment submits successfully (so the loop runs to the end without raising),
it returns `None` — the last segment's reference is only threaded internally
as the reply anchor of the next segment, never returned. -/
theorem claim_C3_amended (prof : Profile) (dp : DoPost) (status : Chars)
    (images : List Image) (inRep : PyVal) (v : PyVal)
    (h : (do_wrapped prof dp status images inRep).2 = .ok v) : v = .pnone := by
  unfold do_wrapped at h
  exact wrappedLoop_ok_pnone dp images _ _ true inRep [] v h

theorem claim_C3_witness :
    ((do_wrapped profT dpOkObj "aa bb".data [] .pnone).2 = .ok .pnone) ∧
      (.pnone : PyVal) = .pnone :=
  ⟨rfl, claim_C3_amended profT dpOkObj "aa bb".data [] .pnone .pnone rfl⟩

/-! ## Claim C4 — variant selection -/

instance : IsTotal Chars (fun a b => a.length ≤ b.length) :=
  ⟨fun x y => Nat.le_total x.length y.length⟩

instance : IsTrans Chars (fun a b => a.length ≤ b.length) :=
  ⟨fun _ _ _ => Nat.le_trans⟩

/-- Behaviour of the `longest_allowed` scan over a length-sorted list: if no
element qualifies (length below the limit), the initial pick survives; if
some element qualifies, the final pick is a qualifying element of the list
of maximal length among the qualifying ones. -/
theorem fold_pick_spec (limit : Nat) :
    ∀ L : List Chars, L.Sorted (fun a b => a.length ≤ b.length) →
      ∀ init : Chars,
        ((∀ s ∈ L, ¬ s.length < limit) →
          L.foldl (fun picked s => if s.length < limit then s else picked) init
            = init) ∧
        ((∃ s ∈ L, s.length < limit) →
          L.foldl (fun picked s => if s.length < limit then s else picked) init
              ∈ L ∧
            (L.foldl (fun picked s => if s.length < limit then s else picked)
              init).length < limit ∧
            ∀ s ∈ L, s.length < limit →
              s.length ≤ (L.foldl
                (fun picked s => if s.length < limit then s else picked)
                init).length) := by
  intro L
  induction L with
  | nil =>
    intro _ init
    exact ⟨fun _ => rfl, fun ⟨s, hs, _⟩ => absurd hs (List.not_mem_nil s)⟩
  | cons a L ih =>
    intro hsort init
    obtain ⟨hhead, htail⟩ := List.sorted_cons.mp hsort
    by_cases ha : a.length < limit
    · simp only [List.foldl_cons, if_pos ha]
      refine ⟨fun hall => absurd ha (hall a (List.mem_cons_self a L)), fun _ => ?_⟩
      by_cases hex : ∃ s ∈ L, s.length < limit
      · obtain ⟨hmem, hq, hbound⟩ := (ih htail a).2 hex
        refine ⟨List.mem_cons_of_mem a hmem, hq, ?_⟩
        intro s hs hsl
        rcases List.mem_cons.mp hs with rfl | hs'
        · exact Nat.le_trans (hhead _ hmem) (Nat.le_refl _)
        · exact hbound s hs' hsl
      · have hall : ∀ s ∈ L, ¬ s.length < limit := by
          intro s hs hsl; exact hex ⟨s, hs, hsl⟩
        have heq := (ih htail a).1 hall
        rw [heq]
        refine ⟨List.mem_cons_self a L, ha, ?_⟩
        intro s hs hsl
        rcases List.mem_cons.mp hs with rfl | hs'
        · exact Nat.le_refl _
        · exact absurd hsl (hall s hs')
    · simp only [List.foldl_cons, if_neg ha]
      constructor
      · intro hall
        exact (ih htail init).1 (fun s hs => hall s (List.mem_cons_of_mem a hs))
      · intro ⟨s0, hs0, hq0⟩
        rcases List.mem_cons.mp hs0 with rfl | hs0'
        · exact absurd hq0 ha
        · obtain ⟨hmem, hq, hbound⟩ := (ih htail init).2 ⟨s0, hs0', hq0⟩
          refine ⟨List.mem_cons_of_mem a hmem, hq, ?_⟩
          intro s hs hsl
          rcases List.mem_cons.mp hs with rfl | hs'
          · exact absurd hsl ha
          · exact hbound s hs' hsl

/-- C4: for a non-empty alternatives list, selection succeeds and returns a
longest alternative strictly below the applicable limit
(`max_length_image` when images are present, else `max_length`); when no
alternative is below the limit, it returns the FIRST element of the list,
not an error. -/
theorem claim_C4_variant_selection (prof : Profile) (ss : List Chars)
    (images : List Image) (limit : Nat)
    (hlim : limit = if !images.isEmpty then prof.max_length_image
      else prof.max_length)
    (h : ss ≠ []) :
    ∃ picked, longest_allowed prof ss images = .ok picked ∧
      ((∃ s ∈ ss, s.length < limit) →
        picked ∈ ss ∧ picked.length < limit ∧
          ∀ s ∈ ss, s.length < limit → s.length ≤ picked.length) ∧
      ((∀ s ∈ ss, ¬ s.length < limit) → ss.head? = some picked) := by
  cases ss with
  | nil => exact absurd rfl h
  | cons s0 rest =>
    have hperm := List.perm_insertionSort
      (fun a b : Chars => a.length ≤ b.length) (s0 :: rest)
    have hsort := List.sorted_insertionSort
      (fun a b : Chars => a.length ≤ b.length) (s0 :: rest)
    have hspec := fold_pick_spec limit _ hsort s0
    have hpick : longest_allowed prof (s0 :: rest) images =
        .ok ((List.insertionSort (fun a b : Chars => a.length ≤ b.length)
            (s0 :: rest)).foldl
          (fun picked s => if s.length < limit then s else picked) s0) := by
      rw [hlim]; rfl
    refine ⟨_, hpick, ?_, ?_⟩
    · intro ⟨s, hs, hq⟩
      obtain ⟨hmem, hqq, hbound⟩ :=
        hspec.2 ⟨s, (hperm.mem_iff).mpr hs, hq⟩
      exact ⟨(hperm.mem_iff).mp hmem, hqq,
        fun t ht htl => hbound t ((hperm.mem_iff).mpr ht) htl⟩
    · intro hall
      have heq := hspec.1 (fun s hs => hall s ((hperm.mem_iff).mp hs))
      rw [heq]
      rfl

/-- The alternatives of the spec's variant-selection example. -/
def altsEx : List Chars :=
  ["short".data, "medium-length".data, "very-long-string-xx".data]

theorem claim_C4_witness :
    ∃ picked, longest_allowed profSel altsEx [] = .ok picked ∧
      ((∃ s ∈ altsEx, s.length < 10) →
        picked ∈ altsEx ∧ picked.length < 10 ∧
          ∀ s ∈ altsEx, s.length < 10 → s.length ≤ picked.length) ∧
      ((∀ s ∈ altsEx, ¬ s.length < 10) → altsEx.head? = some picked) :=
  claim_C4_variant_selection profSel altsEx [] 10 (by decide) (by decide)

/-! ## Claim C1 — partial-failure isolation of the fan-out -/

/-- C1 counterexample: three configured services, the second of which raises
`PostError` on every submission, and a request carrying a per-service
reply-target mapping.  The orchestrator's loop-variable rebinding makes the
second iteration evaluate `11["s2"]`, so a `TypeError` escapes `Bot.post`:
the returned mapping (with the entries of services 1 and 3) is lost, contrary
to the claim's guarantee for every request. -/
theorem claim_C1_counterexample :
    (bot_post [mkSvc "s1" dpOkObj, mkSvc "s2" dpFailPost, mkSvc "s3" dpOkObj]
        rlId (.str "hi".data) false (.list [])
        (.dict [("s1".data, .nat 11), ("s2".data, .nat 12),
                ("s3".data, .nat 13)])).1
      = .error .typeError :=
  rfl

theorem assocSet_mem_self {β : Type} (es : List (Chars × β)) (k : Chars)
    (v : β) : (k, v) ∈ assocSet es k v := by
  induction es with
  | nil => exact List.mem_singleton.mpr rfl
  | cons p rest ih =>
    obtain ⟨k0, v0⟩ := p
    simp only [assocSet]
    by_cases hk : k0 = k
    · simp [hk]
    · simp only [if_neg hk]
      exact List.mem_cons_of_mem _ ih

theorem assocSet_mem_of_ne {β : Type} (es : List (Chars × β)) (k : Chars)
    (v : β) (k' : Chars) (v' : β) (hne : k' ≠ k) :
    ((k', v') ∈ assocSet es k v ↔ (k', v') ∈ es) := by
  induction es with
  | nil =>
    simp only [assocSet, List.mem_singleton, List.not_mem_nil, iff_false]
    intro hmem
    exact hne (congrArg Prod.fst hmem)
  | cons p rest ih =>
    obtain ⟨k0, v0⟩ := p
    simp only [assocSet]
    by_cases hk : k0 = k
    · rw [if_pos hk]
      have hk' : k' ≠ k0 := fun h => hne (h.trans hk)
      simp [List.mem_cons, Prod.ext_iff, hne, hk']
    · rw [if_neg hk]
      simp only [List.mem_cons, ih]

theorem assocSet_mem_cases {β : Type} (es : List (Chars × β)) (k : Chars)
    (v : β) (k' : Chars) (v' : β) (hmem : (k', v') ∈ assocSet es k v) :
    k' = k ∨ (k', v') ∈ es := by
  induction es with
  | nil =>
    exact Or.inl (congrArg Prod.fst (List.mem_singleton.mp hmem))
  | cons p rest ih =>
    obtain ⟨k0, v0⟩ := p
    simp only [assocSet] at hmem
    by_cases hk : k0 = k
    · rw [if_pos hk] at hmem
      rcases List.mem_cons.mp hmem with heq | hmem'
      · exact Or.inl (congrArg Prod.fst heq)
      · exact Or.inr (List.mem_cons_of_mem _ hmem')
    · rw [if_neg hk] at hmem
      rcases List.mem_cons.mp hmem with heq | hmem'
      · exact Or.inr (List.mem_cons.mpr (Or.inl heq))
      · rcases ih hmem' with h | h
        · exact Or.inl h
        · exact Or.inr (List.mem_cons_of_mem _ h)

/-- The accumulator update performed by the fan-out loop for one service. -/
def outStep (rl : Image → Nat → Option Nat → Image) (status : Status)
    (wrap : Bool) (images : List Image) (acc : List (Chars × PyVal))
    (svc : ServiceInst) : List (Chars × PyVal) :=
  match (servicePostOf rl status wrap images svc).2 with
  | .ok v => assocSet acc svc.name v
  | .error _ => acc

/-- Unfolding of one fan-out iteration when the reply target is `None` (the
truthiness test fails, so no lookup happens and the target stays `None`). -/
theorem botLoop_cons_pnone (rl : Image → Nat → Option Nat → Image)
    (status : Status) (wrap : Bool) (images : List Image) (svc : ServiceInst)
    (rest : List ServiceInst) (out : List (Chars × PyVal))
    (trace : List (Chars × Submission)) :
    botLoop rl status wrap images .pnone (svc :: rest) out trace =
      (match (servicePostOf rl status wrap images svc).2 with
       | Except.ok v =>
         botLoop rl status wrap images PyVal.pnone rest (assocSet out svc.name v)
           (trace ++ (servicePostOf rl status wrap images svc).1.map
             (fun s => (svc.name, s)))
       | Except.error e =>
         if e = PyErr.postError then
           botLoop rl status wrap images PyVal.pnone rest out
             (trace ++ (servicePostOf rl status wrap images svc).1.map
               (fun s => (svc.name, s)))
         else (Except.error e,
           trace ++ (servicePostOf rl status wrap images svc).1.map
             (fun s => (svc.name, s)))) := by
  show (match (servicePostOf rl status wrap images svc).2 with
    | Except.ok v =>
      botLoop rl status wrap images PyVal.pnone rest (assocSet out svc.name v)
        (trace ++ (servicePostOf rl status wrap images svc).1.map
          (fun s => (svc.name, s)))
    | Except.error e =>
      if e = PyErr.postError then
        botLoop rl status wrap images PyVal.pnone rest out
          (trace ++ (servicePostOf rl status wrap images svc).1.map
            (fun s => (svc.name, s)))
      else (Except.error e,
        trace ++ (servicePostOf rl status wrap images svc).1.map
          (fun s => (svc.name, s)))) = _
  cases (servicePostOf rl status wrap images svc).2 <;> rfl

/-- When every service either succeeds or raises `PostError`, and the reply
target is `None`, the fan-out loop never escapes: it returns the fold of the
per-service updates over the accumulator. -/
theorem botLoop_char (rl : Image → Nat → Option Nat → Image) (status : Status)
    (wrap : Bool) (images : List Image) :
    ∀ services : List ServiceInst,
      (∀ svc ∈ services,
        (∃ v, (servicePostOf rl status wrap images svc).2 = .ok v) ∨
          (servicePostOf rl status wrap images svc).2 = .error .postError) →
      ∀ out trace,
        (botLoop rl status wrap images .pnone services out trace).1
          = .ok (services.foldl (outStep rl status wrap images) out) := by
  intro services
  induction services with
  | nil => intro _ out trace; rfl
  | cons svc rest ih =>
    intro hb out trace
    have hbsvc := hb svc (List.mem_cons_self svc rest)
    have hbrest := fun s hs => hb s (List.mem_cons_of_mem svc hs)
    rw [botLoop_cons_pnone, List.foldl_cons]
    rcases hbsvc with ⟨v, hv⟩ | herr
    · have hstep : outStep rl status wrap images out svc
          = assocSet out svc.name v := by
        unfold outStep; rw [hv]
      simp only [hv, hstep]
      exact ih hbrest _ _
    · have hstep : outStep rl status wrap images out svc = out := by
        unfold outStep; rw [herr]
      simp only [herr, hstep, eq_self_iff_true, if_true]
      exact ih hbrest _ _

/-- Entries already present under a name that no later service carries
survive the rest of the fold. -/
theorem foldl_outStep_preserve (rl : Image → Nat → Option Nat → Image)
    (status : Status) (wrap : Bool) (images : List Image) :
    ∀ (rest : List ServiceInst) (acc : List (Chars × PyVal)) (k : Chars)
      (v : PyVal), (k, v) ∈ acc → (∀ b ∈ rest, b.name ≠ k) →
        (k, v) ∈ rest.foldl (outStep rl status wrap images) acc := by
  intro rest
  induction rest with
  | nil => intro acc k v hmem _; exact hmem
  | cons b rest ih =>
    intro acc k v hmem hname
    simp only [List.foldl_cons]
    refine ih _ k v ?_ (fun c hc => hname c (List.mem_cons_of_mem b hc))
    unfold outStep
    cases (servicePostOf rl status wrap images b).2 with
    | ok w =>
      exact (assocSet_mem_of_ne acc b.name w k v
        (fun hk => hname b (List.mem_cons_self b rest) hk.symm)).mpr hmem
    | error e => exact hmem

/-- A name carried by no later service and absent from the accumulator stays
absent through the rest of the fold. -/
theorem foldl_outStep_absent (rl : Image → Nat → Option Nat → Image)
    (status : Status) (wrap : Bool) (images : List Image) :
    ∀ (rest : List ServiceInst) (acc : List (Chars × PyVal)) (k : Chars),
      (∀ v, (k, v) ∉ acc) → (∀ b ∈ rest, b.name ≠ k) →
        ∀ v, (k, v) ∉ rest.foldl (outStep rl status wrap images) acc := by
  intro rest
  induction rest with
  | nil => intro acc k habs _ v; exact habs v
  | cons b rest ih =>
    intro acc k habs hname
    simp only [List.foldl_cons]
    refine ih _ k ?_ (fun c hc => hname c (List.mem_cons_of_mem b hc))
    intro v hmem
    unfold outStep at hmem
    cases hb : (servicePostOf rl status wrap images b).2 with
    | ok w =>
      rw [hb] at hmem
      rcases assocSet_mem_cases acc b.name w k v hmem with hk | hmem'
      · exact hname b (List.mem_cons_self b rest) hk.symm
      · exact habs v hmem'
    | error e =>
      rw [hb] at hmem
      exact habs v hmem

/-- A succeeding service's entry appears in the final fold. -/
theorem foldl_outStep_mem_ok (rl : Image → Nat → Option Nat → Image)
    (status : Status) (wrap : Bool) (images : List Image) :
    ∀ services : List ServiceInst,
      services.Pairwise (fun a b => a.name ≠ b.name) →
      ∀ svc ∈ services, ∀ v,
        (servicePostOf rl status wrap images svc).2 = .ok v →
        ∀ out, (svc.name, v)
          ∈ services.foldl (outStep rl status wrap images) out := by
  intro services
  induction services with
  | nil => intro _ svc hsvc; exact absurd hsvc (List.not_mem_nil svc)
  | cons a rest ih =>
    intro hdist svc hsvc v hv out
    have hdhead := (List.pairwise_cons.mp hdist).1
    have hdtail := (List.pairwise_cons.mp hdist).2
    simp only [List.foldl_cons]
    rcases List.mem_cons.mp hsvc with rfl | hsvc'
    · have hstep : outStep rl status wrap images out svc
          = assocSet out svc.name v := by
        unfold outStep; rw [hv]
      rw [hstep]
      exact foldl_outStep_preserve rl status wrap images rest _ svc.name v
        (assocSet_mem_self out svc.name v)
        (fun b hb => (hdhead b hb).symm)
    · exact ih hdtail svc hsvc' v hv _

/-- A `PostError`-raising service contributes no entry to the final fold
(starting from an accumulator free of its name). -/
theorem foldl_outStep_not_mem_err (rl : Image → Nat → Option Nat → Image)
    (status : Status) (wrap : Bool) (images : List Image) :
    ∀ services : List ServiceInst,
      services.Pairwise (fun a b => a.name ≠ b.name) →
      ∀ svc ∈ services,
        (servicePostOf rl status wrap images svc).2 = .error .postError →
        ∀ out, (∀ w, (svc.name, w) ∉ out) →
        ∀ v, (svc.name, v)
          ∉ services.foldl (outStep rl status wrap images) out := by
  intro services
  induction services with
  | nil => intro _ svc hsvc; exact absurd hsvc (List.not_mem_nil svc)
  | cons a rest ih =>
    intro hdist svc hsvc herr out habs v
    have hdhead := (List.pairwise_cons.mp hdist).1
    have hdtail := (List.pairwise_cons.mp hdist).2
    simp only [List.foldl_cons]
    rcases List.mem_cons.mp hsvc with rfl | hsvc'
    · have hstep : outStep rl status wrap images out svc = out := by
        unfold outStep; rw [herr]
      rw [hstep]
      exact foldl_outStep_absent rl status wrap images rest out svc.name habs
        (fun b hb => (hdhead b hb).symm) v
    · have hane : a.name ≠ svc.name := hdhead svc hsvc'
      refine ih hdtail svc hsvc' herr _ ?_ v
      intro w hmem
      unfold outStep at hmem
      cases hb : (servicePostOf rl status wrap images a).2 with
      | ok u =>
        rw [hb] at hmem
        rcases assocSet_mem_cases out a.name u svc.name w hmem with hk | hmem'
        · exact hane hk.symm
        · exact habs w hmem'
      | error e =>
        rw [hb] at hmem
        exact habs w hmem

theorem allImg (images : List Image) :
    ((images.map PyObj.img).all
      (fun o => match o with | .img _ => true | .other => false)) = true := by
  induction images with
  | nil => rfl
  | cons i rest ih => simp [ih]

theorem filterMapImg (images : List Image) :
    ((images.map PyObj.img).filterMap
      (fun o => match o with | .img i => some i | .other => none)) = images := by
  induction images with
  | nil => rfl
  | cons i rest ih => simpa using ih

/-- C1 amended: for every request whose reply-target argument is absent
(`None`), and every sequence of configured services with distinct names in
which each service's post either succeeds or raises `PostError`, the
orchestrator returns a mapping (no exception escapes) that contains the
entry of every succeeding service — before and after any failing one — and
contains no entry for a failing service. -/
theorem claim_C1_isolation (services : List ServiceInst)
    (rl : Image → Nat → Option Nat → Image) (status : Status) (wrap : Bool)
    (images : List Image)
    (hdist : services.Pairwise (fun a b => a.name ≠ b.name))
    (hstatus : match status with
      | .list ss => wrap = false ∧ ss ≠ []
      | .str _ => True)
    (hbehave : ∀ svc ∈ services,
      (∃ v, (servicePostOf rl status wrap images svc).2 = .ok v) ∨
        (servicePostOf rl status wrap images svc).2 = .error .postError) :
    ∃ m, (bot_post services rl status wrap (.list (images.map PyObj.img))
          .pnone).1 = .ok m ∧
      (∀ svc ∈ services, ∀ v,
        (servicePostOf rl status wrap images svc).2 = .ok v →
          (svc.name, v) ∈ m) ∧
      (∀ svc ∈ services,
        (servicePostOf rl status wrap images svc).2 = .error .postError →
          ∀ v, (svc.name, v) ∉ m) := by
  have hreach : (bot_post services rl status wrap
      (.list (images.map PyObj.img)) .pnone)
      = botLoop rl status wrap images .pnone services [] [] := by
    cases status with
    | str s =>
      simp only [bot_post, allImg, if_true, filterMapImg]
      rfl
    | list ss =>
      obtain ⟨hw, hne⟩ := hstatus
      subst hw
      cases ss with
      | nil => exact absurd rfl hne
      | cons s0 lrest =>
        simp only [bot_post, allImg, if_true, filterMapImg, List.isEmpty_cons,
          Bool.false_or, Bool.or_self]
        rfl
  refine ⟨services.foldl (outStep rl status wrap images) [], ?_, ?_, ?_⟩
  · rw [hreach]
    exact botLoop_char rl status wrap images services hbehave [] []
  · intro svc hsvc v hv
    exact foldl_outStep_mem_ok rl status wrap images services hdist svc hsvc
      v hv []
  · intro svc hsvc herr v
    exact foldl_outStep_not_mem_err rl status wrap images services hdist svc
      hsvc herr [] (fun w hw => absurd hw (List.not_mem_nil _)) v

theorem claim_C1_witness :
    ∃ m, (bot_post
          [mkSvc "s1" dpOkObj, mkSvc "s2" dpFailPost, mkSvc "s3" dpOkObj]
          rlId (.str "hi".data) false (.list (([] : List Image).map PyObj.img))
          .pnone).1 = .ok m ∧
      (∀ svc ∈ [mkSvc "s1" dpOkObj, mkSvc "s2" dpFailPost,
          mkSvc "s3" dpOkObj], ∀ v,
        (servicePostOf rlId (.str "hi".data) false [] svc).2 = .ok v →
          (svc.name, v) ∈ m) ∧
      (∀ svc ∈ [mkSvc "s1" dpOkObj, mkSvc "s2" dpFailPost,
          mkSvc "s3" dpOkObj],
        (servicePostOf rlId (.str "hi".data) false [] svc).2
            = .error .postError →
          ∀ v, (svc.name, v) ∉ m) :=
  claim_C1_isolation
    [mkSvc "s1" dpOkObj, mkSvc "s2" dpFailPost, mkSvc "s3" dpOkObj]
    rlId (.str "hi".data) false [] (by decide) trivial
    (by
      intro svc h
      simp only [List.mem_cons, List.not_mem_nil, or_false] at h
      rcases h with rfl | rfl | rfl
      · exact Or.inl ⟨_, rfl⟩
      · exact Or.inr rfl
      · exact Or.inl ⟨_, rfl⟩)

/-! ## Claim C5 — wrap segmentation: chunk structure lemmas -/

/-- A well-formed textwrap chunk: non-empty, every character of the same
whitespace class (recorded by `isBlank`). -/
def GoodChunk (x : Chars) : Prop := x ≠ [] ∧ ∀ a ∈ x, pySpace a = isBlank x

/-- Chunk lists alternate between whitespace runs and word runs. -/
def AltChunks (L : List Chars) : Prop :=
  List.Chain' (fun a b => isBlank a ≠ isBlank b) L

/-- The word chunks among a chunk list. -/
def wordsChunks (L : List Chars) : List Chars :=
  L.filter (fun x => !isBlank x)

/-- The words contributed by an optionally emitted line. -/
def wordsLine : Option Chars → List Chars
  | none => []
  | some l => wordsOf l

theorem isBlank_of_class (x : Chars) (b : Bool) (hne : x ≠ [])
    (h : ∀ a ∈ x, pySpace a = b) : isBlank x = b := by
  cases x with
  | nil => exact absurd rfl hne
  | cons c cs =>
    have hc := h c (List.mem_cons_self c cs)
    cases b with
    | false => simp only [isBlank, List.all_cons, hc, Bool.false_and]
    | true =>
      simp only [isBlank, List.all_cons, hc, Bool.true_and, List.all_eq_true]
      intro a ha
      exact h a (List.mem_cons_of_mem c ha)

theorem goodChunk_of_class (x : Chars) (b : Bool) (hne : x ≠ [])
    (h : ∀ a ∈ x, pySpace a = b) : GoodChunk x :=
  ⟨hne, fun a ha => (h a ha).trans (isBlank_of_class x b hne h).symm⟩

/-- A non-empty selection of characters from a good chunk is again a good
chunk of the same class. -/
theorem goodChunk_sub (x y : Chars) (hx : GoodChunk x) (hyne : y ≠ [])
    (hsub : ∀ a ∈ y, a ∈ x) : GoodChunk y ∧ isBlank y = isBlank x := by
  have hcls : ∀ a ∈ y, pySpace a = isBlank x := fun a ha => hx.2 a (hsub a ha)
  have hib := isBlank_of_class y (isBlank x) hyne hcls
  exact ⟨⟨hyne, fun a ha => (hcls a ha).trans hib.symm⟩, hib⟩

theorem dropWhile_head_false {α : Type} (p : α → Bool) :
    ∀ (l : List α) (y : α) (t : List α), l.dropWhile p = y :: t →
      p y = false := by
  intro l
  induction l with
  | nil => intro y t h; simp [List.dropWhile] at h
  | cons a l ih =>
    intro y t h
    simp only [List.dropWhile] at h
    cases hp : p a
    · rw [hp] at h
      cases h
      exact hp
    · rw [hp] at h
      exact ih y t h

theorem takeWhile_append_all {α : Type} (p : α → Bool) :
    ∀ (l1 l2 : List α), (∀ a ∈ l1, p a = true) →
      (l1 ++ l2).takeWhile p = l1 ++ l2.takeWhile p := by
  intro l1
  induction l1 with
  | nil => intro l2 _; rfl
  | cons a l1 ih =>
    intro l2 h
    have ha := h a (List.mem_cons_self a l1)
    simp only [List.cons_append, List.takeWhile_cons, ha, if_true]
    rw [ih l2 (fun b hb => h b (List.mem_cons_of_mem a hb))]

theorem dropWhile_append_all {α : Type} (p : α → Bool) :
    ∀ (l1 l2 : List α), (∀ a ∈ l1, p a = true) →
      (l1 ++ l2).dropWhile p = l2.dropWhile p := by
  intro l1
  induction l1 with
  | nil => intro l2 _; rfl
  | cons a l1 ih =>
    intro l2 h
    have ha := h a (List.mem_cons_self a l1)
    simp only [List.cons_append, List.dropWhile_cons, ha, if_true]
    exact ih l2 (fun b hb => h b (List.mem_cons_of_mem a hb))

theorem splitRunsF_good :
    ∀ fuel (s : Chars), s.length ≤ fuel →
      ∀ x ∈ splitRunsF fuel s, GoodChunk x := by
  intro fuel
  induction fuel with
  | zero =>
    intro s h x hx
    have : s = [] := List.eq_nil_of_length_eq_zero (Nat.le_zero.mp h)
    subst this
    simp [splitRunsF] at hx
  | succ f ih =>
    intro s h x hx
    cases s with
    | nil => simp [splitRunsF] at hx
    | cons c cs =>
      simp only [splitRunsF] at hx
      rcases List.mem_cons.mp hx with rfl | hx'
      · refine goodChunk_of_class _ (pySpace c) (by simp) ?_
        intro a ha
        rcases List.mem_cons.mp ha with rfl | ha'
        · rfl
        · have hta := List.mem_takeWhile_imp ha'
          exact of_decide_eq_true hta
      · exact ih _
          (Nat.le_trans (length_dropWhile_le' _ _) (Nat.lt_succ_iff.mp h))
          x hx'

theorem splitRuns_good (s : Chars) : ∀ x ∈ splitRuns s, GoodChunk x :=
  splitRunsF_good s.length s (Nat.le_refl _)

/-- Every character of a `splitRuns` run has the class of the run's head. -/
theorem run_class (c : Char) (cs : Chars) :
    ∀ a ∈ (c :: cs.takeWhile (fun d => pySpace d = pySpace c)),
      pySpace a = pySpace c := by
  intro a ha
  rcases List.mem_cons.mp ha with rfl | ha'
  · rfl
  · have hta := List.mem_takeWhile_imp ha'
    exact of_decide_eq_true hta

theorem isBlank_run (c : Char) (cs : Chars) :
    isBlank (c :: cs.takeWhile (fun d => pySpace d = pySpace c))
      = pySpace c :=
  isBlank_of_class _ (pySpace c) (by simp) (run_class c cs)

theorem splitRunsF_nil_any (fuel : Nat) : splitRunsF fuel [] = [] := by
  cases fuel <;> rfl

theorem splitRunsF_alt :
    ∀ fuel (s : Chars), s.length ≤ fuel → AltChunks (splitRunsF fuel s) := by
  intro fuel
  induction fuel with
  | zero =>
    intro s h
    have : s = [] := List.eq_nil_of_length_eq_zero (Nat.le_zero.mp h)
    subst this
    exact List.chain'_nil
  | succ f ih =>
    intro s h
    cases s with
    | nil => exact List.chain'_nil
    | cons c cs =>
      simp only [splitRunsF]
      have hlen : (cs.dropWhile (fun d => pySpace d = pySpace c)).length ≤ f :=
        Nat.le_trans (length_dropWhile_le' _ _) (Nat.lt_succ_iff.mp h)
      refine List.chain'_cons'.mpr ⟨?_, ih _ hlen⟩
      intro y hy
      cases hrest : cs.dropWhile (fun d => pySpace d = pySpace c) with
      | nil =>
        rw [hrest, splitRunsF_nil_any] at hy
        simp at hy
      | cons y0 t =>
        rw [hrest] at hy hlen
        cases f with
        | zero => simp at hlen
        | succ f1 =>
          simp only [splitRunsF, List.head?_cons, Option.mem_def,
            Option.some.injEq] at hy
          subst hy
          rw [isBlank_run, isBlank_run]
          have hy0 := dropWhile_head_false _ cs y0 t hrest
          have : ¬ (pySpace y0 = pySpace c) := of_decide_eq_false hy0
          exact fun heq => this heq.symm

theorem splitRuns_alt (s : Chars) : AltChunks (splitRuns s) :=
  splitRunsF_alt s.length s (Nat.le_refl _)

/-- Flattening a good, alternating chunk list and re-splitting recovers the
same chunk list. -/
theorem splitRuns_flatten :
    ∀ L : List Chars, (∀ x ∈ L, GoodChunk x) → AltChunks L →
      splitRuns L.flatten = L := by
  intro L
  induction L with
  | nil => intro _ _; rfl
  | cons x L' ih =>
    intro hg ha
    obtain ⟨hne, hcls⟩ := hg x (List.mem_cons_self x L')
    cases x with
    | nil => exact absurd rfl hne
    | cons c x' =>
      have hclsc : pySpace c = isBlank (c :: x') :=
        hcls c (List.mem_cons_self c x')
      have hx' : ∀ a ∈ x',
          (fun d => decide (pySpace d = pySpace c)) a = true := by
        intro a hax
        have := (hcls a (List.mem_cons_of_mem c hax)).trans hclsc.symm
        exact decide_eq_true this
      have hflat : ((c :: x') :: L').flatten = c :: (x' ++ L'.flatten) := rfl
      rw [hflat, splitRuns_cons]
      have htail0 : (x' ++ L'.flatten).takeWhile
            (fun d => pySpace d = pySpace c)
          = x' ++ L'.flatten.takeWhile (fun d => pySpace d = pySpace c) :=
        takeWhile_append_all _ x' L'.flatten hx'
      have hdrop0 : (x' ++ L'.flatten).dropWhile
            (fun d => pySpace d = pySpace c)
          = L'.flatten.dropWhile (fun d => pySpace d = pySpace c) :=
        dropWhile_append_all _ x' L'.flatten hx'
      have hflatrest :
          L'.flatten.takeWhile (fun d => pySpace d = pySpace c) = [] ∧
          L'.flatten.dropWhile (fun d => pySpace d = pySpace c)
            = L'.flatten := by
        cases L' with
        | nil => exact ⟨rfl, rfl⟩
        | cons y rest =>
          obtain ⟨hyne, hycls⟩ := hg y (List.mem_cons_of_mem _
            (List.mem_cons_self y rest))
          cases y with
          | nil => exact absurd rfl hyne
          | cons d y' =>
            have hrel : isBlank (c :: x') ≠ isBlank (d :: y') := by
              have := (List.chain'_cons'.mp ha).1
              exact this (d :: y') (by simp)
            have hd : pySpace d ≠ pySpace c := by
              have hdcls : pySpace d = isBlank (d :: y') :=
                hycls d (List.mem_cons_self d y')
              rw [hdcls, hclsc]
              exact fun heq => hrel heq.symm
            have hflat2 : ((d :: y') :: rest).flatten
                = d :: (y' ++ rest.flatten) := rfl
            rw [hflat2]
            constructor
            · rw [List.takeWhile_cons]
              simp [hd]
            · rw [List.dropWhile_cons]
              simp [hd]
      rw [htail0, hdrop0, hflatrest.1, hflatrest.2, List.append_nil]
      have htail : AltChunks L' := List.Chain'.tail ha
      rw [ih (fun z hz => hg z (List.mem_cons_of_mem _ hz)) htail]

theorem wordsOf_flatten (L : List Chars) (hg : ∀ x ∈ L, GoodChunk x)
    (ha : AltChunks L) : wordsOf L.flatten = wordsChunks L := by
  unfold wordsOf wordsChunks
  rw [splitRuns_flatten L hg ha]

theorem greedyTake_append (width : Nat) :
    ∀ (cs : List Chars) (k : Nat),
      (greedyTake width k cs).1 ++ (greedyTake width k cs).2 = cs := by
  intro cs
  induction cs with
  | nil => intro k; rfl
  | cons c cs ih =>
    intro k
    simp only [greedyTake]
    by_cases h : k + c.length ≤ width
    · rw [if_pos h]
      simp only [List.cons_append, List.cons.injEq, true_and]
      exact ih (k + c.length)
    · rw [if_neg h]
      rfl

theorem greedyTake_sum (width : Nat) :
    ∀ (cs : List Chars) (k : Nat),
      (greedyTake width k cs).1 = [] ∨
        k + sumLen (greedyTake width k cs).1 ≤ width := by
  intro cs
  induction cs with
  | nil => intro k; exact Or.inl rfl
  | cons c cs ih =>
    intro k
    simp only [greedyTake]
    by_cases h : k + c.length ≤ width
    · rw [if_pos h]
      right
      rcases ih (k + c.length) with hnil | hsum
      · simp [sumLen, hnil]
        omega
      · simp only [sumLen, List.map_cons, List.sum_cons]
        simp only [sumLen] at hsum
        omega
    · rw [if_neg h]
      exact Or.inl rfl

theorem greedyTake_nil_iff (width : Nat) (c : Chars) (cs : List Chars)
    (k : Nat) :
    (greedyTake width k (c :: cs)).1 = [] ↔ ¬ (k + c.length ≤ width) := by
  simp only [greedyTake]
  by_cases h : k + c.length ≤ width
  · simp [if_pos h, h]
  · simp [if_neg h, h]

theorem sumLen_append (a b : List Chars) :
    sumLen (a ++ b) = sumLen a + sumLen b := by
  simp [sumLen, List.sum_append]

theorem chunkMeasure_append (a b : List Chars) :
    chunkMeasure (a ++ b) = chunkMeasure a + chunkMeasure b := by
  simp [chunkMeasure, List.sum_append]

theorem sumLen_dropLast_le (L : List Chars) : sumLen L.dropLast ≤ sumLen L := by
  cases hL : L.getLast? with
  | none =>
    have : L = [] := by
      cases L with
      | nil => rfl
      | cons a l => simp [List.getLast?_eq_getLast] at hL
    subst this
    exact Nat.le_refl _
  | some a =>
    have hne : L ≠ [] := by
      intro h; subst h; simp at hL
    have := List.dropLast_append_getLast hne
    calc sumLen L.dropLast ≤ sumLen L.dropLast + sumLen [L.getLast hne] :=
          Nat.le_add_right _ _
      _ = sumLen (L.dropLast ++ [L.getLast hne]) := (sumLen_append _ _).symm
      _ = sumLen L := by rw [this]

theorem handleLongWord_split (w k : Nat) (c : Chars) :
    (handleLongWord w k c).1 ++ (handleLongWord w k c).2 = c :=
  List.take_append_drop _ _

theorem handleLongWord_piece_len (w k : Nat) (c : Chars) (hw : 1 ≤ w) :
    (handleLongWord w k c).1.length ≤ w - k := by
  unfold handleLongWord
  have hsl : (if w < 1 then 1 else w - k) = w - k := by
    rw [if_neg (by omega)]
  rw [hsl]
  by_cases hk : 1 ≤ w - k
  · exact Nat.le_trans (List.length_take_le _ _) (hlwEnd_le _ _ hk)
  · have h0 : w - k = 0 := by omega
    rw [h0]
    show (List.take (hlwEnd 0 c) c).length ≤ 0
    rw [hlwEnd_zero]
    simp

theorem handleLongWord_rem_ne (w k : Nat) (c : Chars) (hw : 1 ≤ w)
    (hc : w < c.length) : (handleLongWord w k c).2 ≠ [] := by
  unfold handleLongWord
  have hsl : (if w < 1 then 1 else w - k) = w - k := by
    rw [if_neg (by omega)]
  rw [hsl]
  show List.drop (hlwEnd (w - k) c) c ≠ []
  intro hnil
  have hlen := congrArg List.length hnil
  rw [List.length_drop] at hlen
  have hle : hlwEnd (w - k) c ≤ w - k ∨ hlwEnd (w - k) c ≤ w := by
    by_cases hk : 1 ≤ w - k
    · exact Or.inl (hlwEnd_le _ _ hk)
    · have h0 : w - k = 0 := by omega
      rw [h0, hlwEnd_zero]
      exact Or.inl (Nat.zero_le _)
  simp only [List.length_nil] at hlen
  rcases hle with hle | hle <;> omega

theorem handleLongWord_rem_lt (w : Nat) (c : Chars) (hw : 1 ≤ w)
    (hc : w < c.length) :
    (handleLongWord w 0 c).2.length < c.length := by
  unfold handleLongWord
  have hsl : (if w < 1 then 1 else w - 0) = w := by
    rw [if_neg (by omega)]; omega
  rw [hsl]
  show (List.drop (hlwEnd w c) c).length < c.length
  have hpos := hlwEnd_pos w c hw
  rw [List.length_drop]
  omega

theorem wrapTrim_subset (L : List Chars) : ∀ x ∈ wrapTrim L, x ∈ L := by
  intro x hx
  unfold wrapTrim at hx
  cases hL : L.getLast? with
  | none => rw [hL] at hx; exact hx
  | some last =>
    simp only [hL] at hx
    by_cases hb : isBlank last
    · rw [if_pos hb] at hx
      exact List.dropLast_subset L hx
    · rw [if_neg hb] at hx
      exact hx

theorem sumLen_wrapTrim_le (L : List Chars) : sumLen (wrapTrim L) ≤ sumLen L := by
  unfold wrapTrim
  cases hL : L.getLast? with
  | none => exact Nat.le_refl _
  | some last =>
    show sumLen (if isBlank last = true then L.dropLast else L) ≤ sumLen L
    by_cases hb : isBlank last
    · rw [if_pos hb]
      exact sumLen_dropLast_le L
    · rw [if_neg hb]

theorem flatten_ne_of (M : List (List Char)) (hM : M ≠ [])
    (hx : ∀ x ∈ M, x ≠ []) : M.flatten ≠ [] := by
  cases M with
  | nil => exact absurd rfl hM
  | cons x M' =>
    have hx0 := hx x (List.mem_cons_self x M')
    cases x with
    | nil => exact absurd rfl hx0
    | cons c x' => simp

theorem wrapEmit_some (L : List Chars) (l : Chars) (h : wrapEmit L = some l) :
    l = (wrapTrim L).flatten ∧ wrapTrim L ≠ [] := by
  unfold wrapEmit at h
  split at h
  · cases h
  · rename_i hemp
    cases h
    exact ⟨rfl, fun hnil => hemp (by rw [hnil]; rfl)⟩

/-- Basic per-step invariants of `wrapCore`: remaining chunks stay
non-empty, any emitted line is non-empty and no longer than the width, and
the measure strictly decreases. -/
theorem wrapCore_basic (width : Nat) (hw : 1 ≤ width) (chunks1 : List Chars)
    (hne : ∀ x ∈ chunks1, x ≠ []) :
    (∀ x ∈ (wrapCore width chunks1).2, x ≠ []) ∧
    (∀ l, (wrapCore width chunks1).1 = some l →
      l ≠ [] ∧ l.length ≤ width) ∧
    (chunks1 ≠ [] →
      chunkMeasure (wrapCore width chunks1).2 < chunkMeasure chunks1) := by
  obtain ⟨tk, rst, hp⟩ :
      ∃ tk rst, greedyTake width 0 chunks1 = (tk, rst) :=
    ⟨_, _, rfl⟩
  have hsplit : tk ++ rst = chunks1 := by
    have := greedyTake_append width chunks1 0
    rw [hp] at this
    exact this
  have hsumtk : sumLen tk ≤ width := by
    have h2 := greedyTake_sum width chunks1 0
    rw [hp] at h2
    simp only at h2
    rcases h2 with hnil | hle
    · rw [hnil]
      simp [sumLen]
    · omega
  have htkne : ∀ x ∈ tk, x ≠ [] := by
    intro x hx
    exact hne x (hsplit ▸ List.mem_append_left rst hx)
  have hrstne : ∀ x ∈ rst, x ≠ [] := by
    intro x hx
    exact hne x (hsplit ▸ List.mem_append_right tk hx)
  have hcore : wrapCore width chunks1
      = (wrapEmit (wrapLong width tk rst).1, (wrapLong width tk rst).2) := by
    unfold wrapCore
    rw [hp]
  rw [hcore]
  -- emitted-line facts, generic in the second component of wrapLong
  have hline : ∀ taken2 : List Chars, sumLen taken2 ≤ width →
      (∀ x ∈ wrapTrim taken2, x ≠ []) →
      ∀ l, wrapEmit taken2 = some l → l ≠ [] ∧ l.length ≤ width := by
    intro taken2 hsum hnel l hl
    obtain ⟨hleq, htne⟩ := wrapEmit_some taken2 l hl
    subst hleq
    refine ⟨flatten_ne_of _ htne hnel, ?_⟩
    have : (wrapTrim taken2).flatten.length = sumLen (wrapTrim taken2) := by
      simp [sumLen, List.length_flatten]
    rw [this]
    exact Nat.le_trans (sumLen_wrapTrim_le taken2) hsum
  cases hrst : rst with
  | nil =>
    refine ⟨by intro x hx; exact absurd hx (List.not_mem_nil x), ?_, ?_⟩
    · intro l hl
      refine hline tk hsumtk ?_ l hl
      intro x hx
      exact htkne x (wrapTrim_subset tk x hx)
    · intro hch
      cases hchunks : chunks1 with
      | nil => exact absurd hchunks hch
      | cons c cs =>
        show chunkMeasure [] < chunkMeasure (c :: cs)
        simp [chunkMeasure]
  | cons r rs =>
    have hrne : r ≠ [] := hrstne r (hrst ▸ List.mem_cons_self r rs)
    by_cases hlong : width < r.length
    · -- long-word branch
      have hwl : wrapLong width tk (r :: rs)
          = (tk ++ [(handleLongWord width (sumLen tk) r).1],
             (handleLongWord width (sumLen tk) r).2 :: rs) := by
        simp [wrapLong, hlong]
      rw [hwl]
      obtain ⟨piece, rem, hpr⟩ :
          ∃ piece rem, handleLongWord width (sumLen tk) r = (piece, rem) :=
        ⟨_, _, rfl⟩
      have hpr1 : (handleLongWord width (sumLen tk) r).1 = piece := by
        rw [hpr]
      have hpr2 : (handleLongWord width (sumLen tk) r).2 = rem := by
        rw [hpr]
      rw [hpr1, hpr2]
      have hremne : rem ≠ [] := by
        have := handleLongWord_rem_ne width (sumLen tk) r hw hlong
        rw [hpr] at this
        exact this
      have hpiecelen : piece.length ≤ width - sumLen tk := by
        have := handleLongWord_piece_len width (sumLen tk) r hw
        rw [hpr] at this
        exact this
      have hremlen : rem.length ≤ r.length := by
        have := congrArg List.length (handleLongWord_split width (sumLen tk) r)
        rw [hpr] at this
        simp only [List.length_append] at this
        omega
      refine ⟨?_, ?_, ?_⟩
      · intro x hx
        rcases List.mem_cons.mp hx with rfl | hx'
        · exact hremne
        · exact hrstne x (hrst ▸ List.mem_cons_of_mem r hx')
      · intro l hl
        refine hline (tk ++ [piece]) ?_ ?_ l hl
        · rw [sumLen_append]
          have : sumLen [piece] = piece.length := by simp [sumLen]
          rw [this]
          omega
        · intro x hx
          have hx2 := wrapTrim_subset _ x hx
          -- if the last element (the piece) were empty it would be blank and
          -- hence dropped by the trim, so members of the trim are non-empty
          unfold wrapTrim at hx
          simp only [List.getLast?_concat] at hx
          by_cases hpb : isBlank piece
          · rw [if_pos hpb, List.dropLast_concat] at hx
            exact htkne x hx
          · rw [if_neg hpb] at hx
            rcases List.mem_append.mp hx with hx' | hx'
            · exact htkne x hx'
            · have : x = piece := List.mem_singleton.mp hx'
              subst this
              intro hxe
              subst hxe
              exact hpb rfl
      · intro _
        rw [← hsplit, hrst]
        cases htk : tk with
        | nil =>
          -- nothing taken: the head chunk itself is over-long; progress
          -- comes from the strict shrink of `_handle_long_word` at curLen 0
          have hrem2 : rem.length < r.length := by
            have := handleLongWord_rem_lt width r hw hlong
            have h0 : sumLen tk = 0 := by rw [htk]; rfl
            rw [h0] at hpr
            rw [hpr] at this
            exact this
          simp only [List.nil_append, chunkMeasure, List.map_cons,
            List.sum_cons]
          omega
        | cons t ts =>
          rw [chunkMeasure_append]
          simp only [chunkMeasure, List.map_cons, List.sum_cons]
          omega
    · -- head chunk fits on a line of its own
      have hwl : wrapLong width tk (r :: rs) = (tk, r :: rs) := by
        simp [wrapLong, hlong]
      rw [hwl]
      have htkne2 : tk ≠ [] := by
        intro htk
        rw [htk] at hsplit
        simp only [List.nil_append] at hsplit
        rw [← hsplit, hrst] at hp
        have := (greedyTake_nil_iff width r rs 0).mp (by rw [hp, htk])
        omega
      refine ⟨?_, ?_, ?_⟩
      · intro x hx
        exact hrstne x (hrst ▸ hx)
      · intro l hl
        refine hline tk hsumtk ?_ l hl
        intro x hx
        exact htkne x (wrapTrim_subset tk x hx)
      · intro _
        rw [← hsplit, chunkMeasure_append, hrst]
        cases htk : tk with
        | nil => exact absurd htk htkne2
        | cons t ts =>
          show chunkMeasure (r :: rs)
            < chunkMeasure (t :: ts) + chunkMeasure (r :: rs)
          simp only [chunkMeasure, List.map_cons, List.sum_cons]
          omega

theorem wordsChunks_append (a b : List Chars) :
    wordsChunks (a ++ b) = wordsChunks a ++ wordsChunks b := by
  simp [wordsChunks, List.filter_append]

theorem wordsChunks_cons_blank (x : Chars) (L : List Chars)
    (hx : isBlank x = true) : wordsChunks (x :: L) = wordsChunks L := by
  simp [wordsChunks, hx]

theorem wordsChunks_wrapTrim (L : List Chars) :
    wordsChunks (wrapTrim L) = wordsChunks L := by
  unfold wrapTrim
  cases hL : L.getLast? with
  | none => rfl
  | some last =>
    show wordsChunks (if isBlank last = true then L.dropLast else L)
      = wordsChunks L
    by_cases hb : isBlank last
    · rw [if_pos hb]
      have hne : L ≠ [] := by intro h; subst h; simp at hL
      have hgl : L.getLast hne = last := by
        have h2 := List.getLast?_eq_getLast L hne
        rw [hL] at h2
        exact (Option.some.inj h2).symm
      conv_rhs => rw [← List.dropLast_append_getLast hne]
      rw [wordsChunks_append, hgl]
      have h3 : wordsChunks [last] = [] := by simp [wordsChunks, hb]
      rw [h3, List.append_nil]
    · rw [if_neg hb]

theorem alt_wrapTrim (L : List Chars) (ha : AltChunks L) :
    AltChunks (wrapTrim L) := by
  unfold wrapTrim
  cases hL : L.getLast? with
  | none => exact ha
  | some last =>
    show AltChunks (if isBlank last = true then L.dropLast else L)
    by_cases hb : isBlank last
    · rw [if_pos hb]
      have hne : L ≠ [] := by intro h; subst h; simp at hL
      have h2 : List.Chain' (fun a b => isBlank a ≠ isBlank b)
          (L.dropLast ++ [L.getLast hne]) := by
        rw [List.dropLast_append_getLast hne]
        exact ha
      exact (List.chain'_append.mp h2).1
    · rw [if_neg hb]
      exact ha

theorem wordsLine_wrapEmit (L : List Chars)
    (hgT : ∀ x ∈ wrapTrim L, GoodChunk x) (haT : AltChunks (wrapTrim L)) :
    wordsLine (wrapEmit L) = wordsChunks (wrapTrim L) := by
  unfold wrapEmit
  by_cases hemp : (wrapTrim L).isEmpty
  · rw [if_pos hemp]
    have h2 : wrapTrim L = [] := by
      cases h3 : wrapTrim L with
      | nil => rfl
      | cons a l => rw [h3] at hemp; simp at hemp
    rw [h2]
    rfl
  · rw [if_neg hemp]
    show wordsOf (wrapTrim L).flatten = wordsChunks (wrapTrim L)
    exact wordsOf_flatten _ hgT haT

theorem isBlank_take (c : Chars) (n : Nat) (hb : isBlank c = true) :
    isBlank (c.take n) = true := by
  simp only [isBlank, List.all_eq_true] at hb ⊢
  intro a ha
  exact hb a (List.mem_of_mem_take ha)

theorem isBlank_drop (c : Chars) (n : Nat) (hb : isBlank c = true) :
    isBlank (c.drop n) = true := by
  simp only [isBlank, List.all_eq_true] at hb ⊢
  intro a ha
  exact hb a (List.mem_of_mem_drop ha)

theorem goodChunk_blank (c : Chars) (hne : c ≠ []) (hb : isBlank c = true) :
    GoodChunk c := by
  refine ⟨hne, fun a ha => ?_⟩
  rw [hb]
  simp only [isBlank, List.all_eq_true] at hb
  exact hb a ha

/-- Words-preservation step of `wrapCore` on good, alternating chunks whose
word chunks fit within the width: the emitted line's words followed by the
remaining chunks' words are exactly the incoming chunks' words, and all
invariants survive on the remaining chunks. -/
theorem wrapCore_words (width : Nat) (hw : 1 ≤ width) (chunks1 : List Chars)
    (hg : ∀ x ∈ chunks1, GoodChunk x) (ha : AltChunks chunks1)
    (hshort : ∀ x ∈ chunks1, isBlank x = false → x.length ≤ width) :
    wordsLine (wrapCore width chunks1).1
        ++ wordsChunks (wrapCore width chunks1).2 = wordsChunks chunks1 ∧
    (∀ x ∈ (wrapCore width chunks1).2, GoodChunk x) ∧
    AltChunks (wrapCore width chunks1).2 ∧
    (∀ x ∈ (wrapCore width chunks1).2,
      isBlank x = false → x.length ≤ width) := by
  obtain ⟨tk, rst, hp⟩ :
      ∃ tk rst, greedyTake width 0 chunks1 = (tk, rst) := ⟨_, _, rfl⟩
  have hsplit : tk ++ rst = chunks1 := by
    have h2 := greedyTake_append width chunks1 0
    rw [hp] at h2
    exact h2
  have hchain : List.Chain' (fun a b => isBlank a ≠ isBlank b) (tk ++ rst) := by
    rw [hsplit]
    exact ha
  obtain ⟨hatk, harst, _⟩ := List.chain'_append.mp hchain
  have hgtk : ∀ x ∈ tk, GoodChunk x := fun x hx =>
    hg x (hsplit ▸ List.mem_append_left rst hx)
  have hgrst : ∀ x ∈ rst, GoodChunk x := fun x hx =>
    hg x (hsplit ▸ List.mem_append_right tk hx)
  have hstk : ∀ x ∈ tk, isBlank x = false → x.length ≤ width := fun x hx =>
    hshort x (hsplit ▸ List.mem_append_left rst hx)
  have hsrst : ∀ x ∈ rst, isBlank x = false → x.length ≤ width := fun x hx =>
    hshort x (hsplit ▸ List.mem_append_right tk hx)
  have hcore : wrapCore width chunks1
      = (wrapEmit (wrapLong width tk rst).1, (wrapLong width tk rst).2) := by
    unfold wrapCore
    rw [hp]
  rw [hcore]
  have hTgood : ∀ x ∈ wrapTrim tk, GoodChunk x := fun x hx =>
    hgtk x (wrapTrim_subset tk x hx)
  have hTalt : AltChunks (wrapTrim tk) := alt_wrapTrim tk hatk
  cases hrst : rst with
  | nil =>
    have hwl : wrapLong width tk [] = (tk, []) := rfl
    rw [hwl]
    refine ⟨?_, fun x hx => absurd hx (List.not_mem_nil x), List.chain'_nil,
      fun x hx => absurd hx (List.not_mem_nil x)⟩
    show wordsLine (wrapEmit tk) ++ wordsChunks [] = wordsChunks chunks1
    rw [wordsLine_wrapEmit tk hTgood hTalt, wordsChunks_wrapTrim]
    have hch : chunks1 = tk := by rw [← hsplit, hrst, List.append_nil]
    rw [hch]
    exact List.append_nil _
  | cons r rs =>
    have hrmem : r ∈ rst := by rw [hrst]; exact List.mem_cons_self r rs
    by_cases hlong : width < r.length
    · -- the over-long head chunk must be whitespace, given short words
      have hrblank : isBlank r = true := by
        cases hb2 : isBlank r with
        | true => rfl
        | false =>
          have := hsrst r hrmem hb2
          omega
      obtain ⟨piece, rem, hpr⟩ :
          ∃ piece rem, handleLongWord width (sumLen tk) r = (piece, rem) :=
        ⟨_, _, rfl⟩
      have hpr1 : (handleLongWord width (sumLen tk) r).1 = piece := by rw [hpr]
      have hpr2 : (handleLongWord width (sumLen tk) r).2 = rem := by rw [hpr]
      have hwl0 : wrapLong width tk (r :: rs)
          = (tk ++ [(handleLongWord width (sumLen tk) r).1],
             (handleLongWord width (sumLen tk) r).2 :: rs) := by
        simp [wrapLong, hlong]
      rw [hwl0, hpr1, hpr2]
      have hpieceblank : isBlank piece = true := by
        rw [← hpr1]
        show isBlank (List.take
          (hlwEnd (if width < 1 then 1 else width - sumLen tk) r) r) = true
        exact isBlank_take r _ hrblank
      have hremblank : isBlank rem = true := by
        rw [← hpr2]
        show isBlank (List.drop
          (hlwEnd (if width < 1 then 1 else width - sumLen tk) r) r) = true
        exact isBlank_drop r _ hrblank
      have hremne : rem ≠ [] := by
        have h2 := handleLongWord_rem_ne width (sumLen tk) r hw hlong
        rw [hpr2] at h2
        exact h2
      have htrim : wrapTrim (tk ++ [piece]) = tk := by
        unfold wrapTrim
        simp only [List.getLast?_concat]
        rw [if_pos hpieceblank, List.dropLast_concat]
      refine ⟨?_, ?_, ?_, ?_⟩
      · rw [wordsLine_wrapEmit (tk ++ [piece])
          (by rw [htrim]; exact hgtk) (by rw [htrim]; exact hatk), htrim]
        rw [wordsChunks_cons_blank rem rs hremblank]
        rw [← hsplit, hrst, wordsChunks_append,
          wordsChunks_cons_blank r rs hrblank]
      · intro x hx
        rcases List.mem_cons.mp hx with rfl | hx'
        · exact goodChunk_blank x hremne hremblank
        · exact hgrst x (by rw [hrst]; exact List.mem_cons_of_mem r hx')
      · rw [hrst] at harst
        obtain ⟨hrel, hrs⟩ := List.chain'_cons'.mp harst
        refine List.chain'_cons'.mpr ⟨?_, hrs⟩
        intro y hy
        have h3 := hrel y hy
        rw [hrblank] at h3
        rw [hremblank]
        exact h3
      · intro x hx hxb
        rcases List.mem_cons.mp hx with rfl | hx'
        · rw [hremblank] at hxb
          cases hxb
        · exact hsrst x (by rw [hrst]; exact List.mem_cons_of_mem r hx') hxb
    · have hwl : wrapLong width tk (r :: rs) = (tk, r :: rs) := by
        simp [wrapLong, hlong]
      rw [hwl]
      rw [hrst] at harst
      refine ⟨?_, fun x hx => hgrst x (by rw [hrst]; exact hx), harst,
        fun x hx => hsrst x (by rw [hrst]; exact hx)⟩
      rw [wordsLine_wrapEmit tk hTgood hTalt, wordsChunks_wrapTrim]
      rw [← hsplit, hrst, wordsChunks_append]

/-- Every line produced by the wrap loop (over non-empty chunks, with any
lines already accumulated satisfying the bound) is non-empty and at most
`width` long — whatever the fuel. -/
theorem wrapLoop_bound (width : Nat) (hw : 1 ≤ width) :
    ∀ (fuel : Nat) (lines chunks : List Chars),
      (∀ x ∈ chunks, x ≠ []) →
      (∀ l ∈ lines, l ≠ [] ∧ l.length ≤ width) →
      ∀ seg ∈ wrapLoop fuel width lines chunks,
        seg ≠ [] ∧ seg.length ≤ width := by
  intro fuel
  induction fuel with
  | zero =>
    intro lines chunks _ hl seg hseg
    exact hl seg (List.mem_reverse.mp hseg)
  | succ f ih =>
    intro lines chunks hc hl seg hseg
    cases chunks with
    | nil => exact hl seg (List.mem_reverse.mp hseg)
    | cons c cs =>
      simp only [wrapLoop] at hseg
      have hstep : wrapStep width (!lines.isEmpty) (c :: cs)
          = wrapCore width
            (if isBlank c && !lines.isEmpty then cs else c :: cs) := rfl
      have hc1 : ∀ x ∈ (if isBlank c && !lines.isEmpty then cs else c :: cs),
          x ≠ [] := by
        split
        · exact fun x hx => hc x (List.mem_cons_of_mem c hx)
        · exact hc
      obtain ⟨hrest, hline, _⟩ := wrapCore_basic width hw _ hc1
      rw [← hstep] at hrest hline
      cases hs1 : (wrapStep width (!lines.isEmpty) (c :: cs)).1 with
      | none =>
        simp only [hs1] at hseg
        exact ih lines _ hrest hl seg hseg
      | some l =>
        simp only [hs1] at hseg
        refine ih (l :: lines) _ hrest ?_ seg hseg
        intro l2 hl2
        rcases List.mem_cons.mp hl2 with rfl | hl2'
        · exact hline l2 hs1
        · exact hl l2 hl2'

/-- With sufficient fuel, the words of the produced lines (after the already
accumulated ones) are exactly the words of the remaining chunks, in
order — provided chunks are good, alternating, and word chunks fit. -/
theorem wrapLoop_words (width : Nat) (hw : 1 ≤ width) :
    ∀ (fuel : Nat) (chunks lines : List Chars),
      chunkMeasure chunks < fuel →
      (∀ x ∈ chunks, GoodChunk x) → AltChunks chunks →
      (∀ x ∈ chunks, isBlank x = false → x.length ≤ width) →
      (wrapLoop fuel width lines chunks).flatMap wordsOf
        = lines.reverse.flatMap wordsOf ++ wordsChunks chunks := by
  intro fuel
  induction fuel with
  | zero =>
    intro chunks lines hm
    simp at hm
  | succ f ih =>
    intro chunks lines hm hg ha hs
    cases chunks with
    | nil =>
      show (lines.reverse).flatMap wordsOf
        = lines.reverse.flatMap wordsOf ++ wordsChunks []
      rw [show wordsChunks [] = [] from rfl, List.append_nil]
    | cons c cs =>
      simp only [wrapLoop]
      have hstep : wrapStep width (!lines.isEmpty) (c :: cs)
          = wrapCore width
            (if isBlank c && !lines.isEmpty then cs else c :: cs) := rfl
      have hgood1 : ∀ x ∈ (if isBlank c && !lines.isEmpty then cs
          else c :: cs), GoodChunk x := by
        split
        · exact fun x hx => hg x (List.mem_cons_of_mem c hx)
        · exact hg
      have halt1 : AltChunks (if isBlank c && !lines.isEmpty then cs
          else c :: cs) := by
        split
        · exact List.Chain'.tail ha
        · exact ha
      have hshort1 : ∀ x ∈ (if isBlank c && !lines.isEmpty then cs
          else c :: cs), isBlank x = false → x.length ≤ width := by
        split
        · exact fun x hx => hs x (List.mem_cons_of_mem c hx)
        · exact hs
      have hne1 : ∀ x ∈ (if isBlank c && !lines.isEmpty then cs
          else c :: cs), x ≠ [] := fun x hx => (hgood1 x hx).1
      have hwc1 : wordsChunks (if isBlank c && !lines.isEmpty then cs
          else c :: cs) = wordsChunks (c :: cs) := by
        split
        · rename_i hcb
          rw [Bool.and_eq_true] at hcb
          exact (wordsChunks_cons_blank c cs hcb.1).symm
        · rfl
      obtain ⟨hwords, hgrest, harest, hsrest⟩ := wrapCore_words width hw _
        hgood1 halt1 hshort1
      obtain ⟨_, _, hmeas⟩ := wrapCore_basic width hw _ hne1
      have hmrest : chunkMeasure
          (wrapCore width (if isBlank c && !lines.isEmpty then cs
            else c :: cs)).2 < f := by
        have hm2 : chunkMeasure (c :: cs) ≤ f := Nat.lt_succ_iff.mp hm
        have hmc : chunkMeasure cs < chunkMeasure (c :: cs) := by
          simp only [chunkMeasure, List.map_cons, List.sum_cons]
          omega
        split
        · rename_i hcb
          have h4 := hmeas
          rw [if_pos hcb] at h4
          cases hcs : cs with
          | nil =>
            have h3 : wrapCore width ([] : List Chars) = (none, []) := rfl
            rw [h3]
            show chunkMeasure [] < f
            rw [hcs] at hm2
            simp only [chunkMeasure, List.map_cons, List.sum_cons,
              List.map_nil, List.sum_nil] at hm2 ⊢
            omega
          | cons c2 cs2 =>
            rw [hcs] at h4 hmc hm2
            have h5 := h4 (by simp)
            omega
        · rename_i hcb
          have h4 := hmeas
          rw [if_neg hcb] at h4
          have h5 := h4 (by simp)
          omega
      rw [← hstep] at hwords hgrest harest hsrest hmrest
      cases hs1 : (wrapStep width (!lines.isEmpty) (c :: cs)).1 with
      | none =>
        simp only [hs1]
        rw [ih _ lines hmrest hgrest harest hsrest]
        rw [hs1] at hwords
        show lines.reverse.flatMap wordsOf
            ++ wordsChunks (wrapStep width (!lines.isEmpty) (c :: cs)).2
          = lines.reverse.flatMap wordsOf ++ wordsChunks (c :: cs)
        rw [← hwc1, ← hwords]
        rfl
      | some l =>
        simp only [hs1]
        rw [ih _ (l :: lines) hmrest hgrest harest hsrest]
        rw [hs1] at hwords
        show (l :: lines).reverse.flatMap wordsOf
            ++ wordsChunks (wrapStep width (!lines.isEmpty) (c :: cs)).2
          = lines.reverse.flatMap wordsOf ++ wordsChunks (c :: cs)
        rw [List.reverse_cons, List.flatMap_append, List.append_assoc]
        rw [← hwc1, ← hwords]
        show lines.reverse.flatMap wordsOf ++ ([l].flatMap wordsOf ++ _) = _
        rw [show ([l].flatMap wordsOf) = wordsOf l by simp]
        rfl

theorem expandTabsAux_eq_self (tabsize : Nat) :
    ∀ (s : Chars) (col : Nat), '\t' ∉ s → expandTabsAux tabsize s col = s := by
  intro s
  induction s with
  | nil => intro col _; rfl
  | cons c cs ih =>
    intro col ht
    have hc : ¬(c = '\t') := fun h => ht (h ▸ List.mem_cons_self c cs)
    have htail : '\t' ∉ cs := fun h => ht (List.mem_cons_of_mem c h)
    simp only [expandTabsAux, if_neg hc]
    split
    · rw [ih 0 htail]
    · rw [ih (col + 1) htail]

theorem splitRuns_map (f : Char → Char)
    (h1 : ∀ c, pySpace (f c) = pySpace c) :
    ∀ (n : Nat) (s : Chars), s.length ≤ n →
      splitRuns (s.map f) = (splitRuns s).map (List.map f) := by
  intro n
  induction n with
  | zero =>
    intro s h
    have : s = [] := List.eq_nil_of_length_eq_zero (Nat.le_zero.mp h)
    subst this
    rfl
  | succ n ih =>
    intro s h
    cases s with
    | nil => rfl
    | cons c cs =>
      rw [List.map_cons, splitRuns_cons, splitRuns_cons]
      have hq : (fun d => decide (pySpace d = pySpace (f c)))
          = (fun d => decide (pySpace d = pySpace c)) :=
        funext fun d => decide_eq_decide.mpr (by rw [h1 c])
      have hq2 : ((fun d => decide (pySpace d = pySpace c)) ∘ f)
          = (fun d => decide (pySpace d = pySpace c)) :=
        funext fun d => by
          simp only [Function.comp]
          exact decide_eq_decide.mpr (by rw [h1 d])
      show (f c :: (cs.map f).takeWhile
            (fun d => decide (pySpace d = pySpace (f c)))) ::
          splitRuns ((cs.map f).dropWhile
            (fun d => decide (pySpace d = pySpace (f c))))
        = ((c :: cs.takeWhile (fun d => decide (pySpace d = pySpace c))) ::
          splitRuns (cs.dropWhile
            (fun d => decide (pySpace d = pySpace c)))).map (List.map f)
      rw [hq, List.takeWhile_map, List.dropWhile_map, hq2]
      rw [ih (cs.dropWhile (fun d => decide (pySpace d = pySpace c)))
        (Nat.le_trans (length_dropWhile_le' _ _) (Nat.lt_succ_iff.mp h))]
      rfl

theorem isBlank_map (f : Char → Char) (h1 : ∀ c, pySpace (f c) = pySpace c)
    (run : Chars) : isBlank (run.map f) = isBlank run := by
  simp only [isBlank, List.all_map]
  congr 1
  funext a
  simp [Function.comp, h1]

theorem map_id_of_mem {α : Type} (f : α → α) :
    ∀ l : List α, (∀ a ∈ l, f a = a) → l.map f = l := by
  intro l
  induction l with
  | nil => intro _; rfl
  | cons a l ih =>
    intro h
    rw [List.map_cons, h a (List.mem_cons_self a l),
      ih (fun b hb => h b (List.mem_cons_of_mem a hb))]

theorem wordsOf_map (f : Char → Char)
    (h1 : ∀ c, pySpace (f c) = pySpace c)
    (h2 : ∀ c, pySpace c = false → f c = c) (s : Chars) :
    wordsOf (s.map f) = wordsOf s := by
  unfold wordsOf
  rw [splitRuns_map f h1 s.length s (Nat.le_refl _), List.filter_map]
  have hp : ((fun c => !isBlank c) ∘ (List.map f))
      = (fun run => !isBlank run) := by
    funext run
    simp only [Function.comp]
    rw [isBlank_map f h1]
  rw [hp]
  apply map_id_of_mem
  intro w hw
  have hw2 := List.mem_filter.mp hw
  have hwb : isBlank w = false := by
    have := hw2.2
    cases hb : isBlank w
    · rfl
    · rw [hb] at this; simp at this
  apply map_id_of_mem
  intro a ha
  apply h2
  -- every character of a non-blank chunk produced by splitRuns is non-space
  have hgood := splitRuns_good s w hw2.1
  have := hgood.2 a ha
  rw [hwb] at this
  exact this

theorem wordsOf_munge (s : Chars) (ht : '\t' ∉ s) :
    wordsOf (mungeWhitespace s) = wordsOf s := by
  unfold mungeWhitespace
  rw [expandTabsAux_eq_self 8 s 0 ht]
  refine wordsOf_map _ ?_ ?_ s
  · intro c
    by_cases hc : pySpace c = true
    · rw [if_pos hc, hc]
      rfl
    · rw [if_neg hc]
  · intro c hc
    rw [if_neg (by rw [hc]; simp)]

/-- The words of `textwrap.wrap` output, in order: exactly the words of the
munged text, when every word fits within the width. -/
theorem textwrapWrap_words (width : Nat) (text : Chars) (hw : 1 ≤ width)
    (hshort : ∀ w2 ∈ wordsOf (mungeWhitespace text), w2.length ≤ width) :
    (textwrapWrap width text).flatMap wordsOf
      = wordsOf (mungeWhitespace text) := by
  unfold textwrapWrap
  rw [wrapLoop_words width hw _ _ [] (Nat.lt_succ_self _)
    (splitRuns_good _) (splitRuns_alt _) ?_]
  · rfl
  · intro x hx hxb
    apply hshort
    unfold wordsOf
    exact List.mem_filter.mpr ⟨hx, by rw [hxb]; rfl⟩

/-- Lines produced by `textwrap.wrap` are non-empty and at most `width`
long. -/
theorem textwrapWrap_bound (width : Nat) (text : Chars) (hw : 1 ≤ width) :
    ∀ seg ∈ textwrapWrap width text, seg ≠ [] ∧ seg.length ≤ width := by
  intro seg hseg
  unfold textwrapWrap at hseg
  exact wrapLoop_bound width hw _ [] _
    (fun x hx => (splitRuns_good _ x hx).1)
    (fun l hl => absurd hl (List.not_mem_nil l)) seg hseg

/-- The ellipsis stitching applied by `do_wrapped` to its segments: the
first of more than one segments gets `…` appended; every later segment gets
`…` prepended. -/
def stitchSegs (segs : List Chars) : List Chars :=
  match segs with
  | [] => []
  | s :: rest =>
    (if rest.isEmpty then s else s ++ ['…']) :: rest.map (fun t => '…' :: t)

theorem wrappedLoop_cons_false (dp : DoPost) (images : List Image)
    (many : Bool) (line : Chars) (rest : List Chars) (rep : PyVal)
    (acc : List Submission) :
    wrappedLoop dp images many (line :: rest) false rep acc =
      (match dp ('…' :: line) [] rep with
       | Except.error e => ((⟨'…' :: line, [], rep⟩ :: acc).reverse, .error e)
       | Except.ok out =>
         match chainUpdate false rep out with
         | Except.error e =>
           ((⟨'…' :: line, [], rep⟩ :: acc).reverse, .error e)
         | Except.ok newRep =>
           wrappedLoop dp images many rest false newRep
             (⟨'…' :: line, [], rep⟩ :: acc)) := by
  cases h : images.isEmpty with
  | true =>
    have : images = [] := by
      cases images with
      | nil => rfl
      | cons i l => simp at h
    subst this
    rfl
  | false =>
    cases images with
    | nil => simp at h
    | cons i l => rfl

theorem wrappedLoop_cons_true (dp : DoPost) (images : List Image)
    (many : Bool) (line : Chars) (rest : List Chars) (rep : PyVal)
    (acc : List Submission) :
    wrappedLoop dp images many (line :: rest) true rep acc =
      (match dp (if many = true then line ++ ['…'] else line)
          (if images.isEmpty then [] else images) rep with
       | Except.error e =>
         ((⟨(if many = true then line ++ ['…'] else line),
            (if images.isEmpty then [] else images), rep⟩ :: acc).reverse,
          .error e)
       | Except.ok out =>
         match chainUpdate true rep out with
         | Except.error e =>
           ((⟨(if many = true then line ++ ['…'] else line),
              (if images.isEmpty then [] else images), rep⟩ :: acc).reverse,
            .error e)
         | Except.ok newRep =>
           wrappedLoop dp images many rest false newRep
             (⟨(if many = true then line ++ ['…'] else line),
               (if images.isEmpty then [] else images), rep⟩ :: acc)) := by
  cases h : images.isEmpty with
  | true =>
    have : images = [] := by
      cases images with
      | nil => rfl
      | cons i l => simp at h
    subst this
    rfl
  | false =>
    cases images with
    | nil => simp at h
    | cons i l => rfl

/-- After the first segment, every submitted text is the segment with `…`
prepended, provided every submission succeeds with an id-carrying object. -/
theorem wrappedLoop_texts_false (dp : DoPost) (images : List Image)
    (many : Bool)
    (hdp : ∀ t imgs rep, ∃ i, dp t imgs rep = .ok (.obj (some i) none)) :
    ∀ (lines : List Chars) (rep : PyVal) (acc : List Submission),
      (wrappedLoop dp images many lines false rep acc).1.map Submission.text
        = acc.reverse.map Submission.text
          ++ lines.map (fun t => '…' :: t) := by
  intro lines
  induction lines with
  | nil =>
    intro rep acc
    show (acc.reverse.map Submission.text) = _
    rw [List.map_nil, List.append_nil]
  | cons line rest ih =>
    intro rep acc
    rw [wrappedLoop_cons_false]
    obtain ⟨i, hi⟩ := hdp ('…' :: line) [] rep
    rw [hi]
    show (wrappedLoop dp images many rest false i
        (⟨'…' :: line, [], rep⟩ :: acc)).1.map Submission.text = _
    rw [ih i (⟨'…' :: line, [], rep⟩ :: acc)]
    rw [List.reverse_cons, List.map_append, List.map_cons]
    simp [List.append_assoc]

/-- Starting a wrapped submission run on a non-empty list of segments with a
succeeding `do_post` produces exactly the stitched segment texts. -/
theorem wrappedLoop_texts_start (dp : DoPost) (images : List Image)
    (hdp : ∀ t imgs rep, ∃ i, dp t imgs rep = .ok (.obj (some i) none))
    (line : Chars) (rest : List Chars) (inRep : PyVal) :
    (wrappedLoop dp images (decide (1 < (line :: rest).length))
        (line :: rest) true inRep []).1.map Submission.text
      = (if rest.isEmpty then line else line ++ ['…'])
        :: rest.map (fun t => '…' :: t) := by
  have hmany : decide (1 < (line :: rest).length) = !rest.isEmpty := by
    cases rest <;> simp
  rw [hmany, wrappedLoop_cons_true]
  obtain ⟨i, hi⟩ := hdp (if (!rest.isEmpty) = true then line ++ ['…'] else line)
    (if images.isEmpty then [] else images) inRep
  rw [hi]
  show (wrappedLoop dp images (!rest.isEmpty) rest false i
      [⟨(if (!rest.isEmpty) = true then line ++ ['…'] else line),
        (if images.isEmpty then [] else images), inRep⟩]).1.map
      Submission.text = _
  rw [wrappedLoop_texts_false dp images (!rest.isEmpty) hdp rest i _]
  cases hre : rest.isEmpty <;> simp

/-- The texts submitted by `do_wrapped` (with an always-succeeding,
id-carrying `do_post`) are the stitched wrap segments. -/
theorem do_wrapped_texts (prof : Profile) (dp : DoPost) (status : Chars)
    (images : List Image) (inRep : PyVal)
    (hdp : ∀ t imgs rep, ∃ i, dp t imgs rep = .ok (.obj (some i) none)) :
    (do_wrapped prof dp status images inRep).1.map Submission.text
      = stitchSegs (if (if !images.isEmpty then prof.max_length_image
            else prof.max_length) < status.length
          then textwrapWrap ((if !images.isEmpty then prof.max_length_image
            else prof.max_length) - prof.ellipsis_length) status
          else [status]) := by
  have key : ∀ wrapped : List Chars,
      (wrappedLoop dp images (decide (1 < wrapped.length)) wrapped true
        inRep []).1.map Submission.text = stitchSegs wrapped := by
    intro wrapped
    cases wrapped with
    | nil => rfl
    | cons line rest =>
      rw [wrappedLoop_texts_start dp images hdp line rest inRep]
      rfl
  exact key _

/-- C5 counterexample: the wrapping algorithm DOES split a word.  With
`max_length = 6`, `ellipsis_length = 1` (width 5), the single 10-character
word is broken into two 5-character segments (CPython `textwrap` defaults
`break_long_words=True`), so neither submitted segment contains the original
word — refuting "never splitting a word". -/
theorem claim_C5_counterexample :
    textwrapWrap 5 "aaaaaaaaaa".data = ["aaaaa".data, "aaaaa".data] ∧
      wordsOf "aaaaaaaaaa".data = ["aaaaaaaaaa".data] ∧
      (do_wrapped profT dpOkObj "aaaaaaaaaa".data [] .pnone).1.map
        Submission.text = ["aaaaa…".data, "…aaaaa".data] :=
  ⟨by decide, by decide, by decide⟩

/-- C5 amended: for text exceeding the applicable limit, wrapping splits it
into non-empty segments of length at most `maxLen - ellipsis_length`,
preserving word order and never splitting a word PROVIDED no word exceeds
that width (a longer word is broken at the width); the first of more than
one segments gets the ellipsis appended and every later segment gets it
prepended.  (Hyphen- and tab-free text: the fragment on which the `_split`
embedding is faithful.) -/
theorem claim_C5_wrap_segmentation (prof : Profile) (dp : DoPost)
    (status : Chars) (images : List Image) (inRep : PyVal)
    (maxLen width : Nat)
    (hml : maxLen = if !images.isEmpty then prof.max_length_image
      else prof.max_length)
    (hwd : width = maxLen - prof.ellipsis_length)
    (hlen : maxLen < status.length) (hw : 1 ≤ width)
    (_hhyph : '-' ∉ status) (htab : '\t' ∉ status) :
    (∀ seg ∈ textwrapWrap width status, seg ≠ [] ∧ seg.length ≤ width) ∧
    ((∀ w2 ∈ wordsOf status, w2.length ≤ width) →
      (textwrapWrap width status).flatMap wordsOf = wordsOf status) ∧
    ((∀ t imgs rep, ∃ i, dp t imgs rep = .ok (.obj (some i) none)) →
      (do_wrapped prof dp status images inRep).1.map Submission.text
        = stitchSegs (textwrapWrap width status)) := by
  refine ⟨textwrapWrap_bound width status hw, ?_, ?_⟩
  · intro hshort
    have h2 := textwrapWrap_words width status hw
      (by rw [wordsOf_munge status htab]; exact hshort)
    rw [wordsOf_munge status htab] at h2
    exact h2
  · intro hdp
    have h3 := do_wrapped_texts prof dp status images inRep hdp
    rw [← hml, if_pos hlen, ← hwd] at h3
    exact h3

theorem claim_C5_witness :
    (∀ seg ∈ textwrapWrap 5 "aa bb cc".data, seg ≠ [] ∧ seg.length ≤ 5) ∧
    ((∀ w2 ∈ wordsOf "aa bb cc".data, w2.length ≤ 5) →
      (textwrapWrap 5 "aa bb cc".data).flatMap wordsOf
        = wordsOf "aa bb cc".data) ∧
    ((∀ t imgs rep, ∃ i, dpOkObj t imgs rep = .ok (.obj (some i) none)) →
      (do_wrapped profT dpOkObj "aa bb cc".data [] .pnone).1.map
          Submission.text
        = stitchSegs (textwrapWrap 5 "aa bb cc".data)) :=
  claim_C5_wrap_segmentation profT dpOkObj "aa bb cc".data [] .pnone 6 5
    (by decide) (by decide) (by decide) (by decide) (by decide) (by decide)
